import Mathlib

/-!
# Verification of the cursor-changelog Raycast extension changelog pipeline

Shallow embedding of `src/raycast-extention/src/utils/changelog.ts`:
cleaning, regex-based extraction, consolidation, ordering and persistence
over `ChangelogEntry` records.  JavaScript strings are modelled as Lean
`String`/`List Char` (the inputs of interest are ASCII, where JS UTF-16
lengths and Lean char counts agree); JS regexes are modelled by a small
backtracking matcher with JS semantics (leftmost match, ordered
alternation, greedy/lazy quantifiers, zero-width lookahead); JS objects
used as string-keyed maps are modelled as association lists in insertion
order (all keys used contain a dot, so JS preserves insertion order);
the exception thrown by `JSON.parse` on malformed input is modelled by
an `Option`-valued parser.
-/

namespace Changelog

/-! ## Character and list-of-char utilities (JS string primitives) -/

/-- JS whitespace class `\s` restricted to the ASCII range (space, tab,
newline, carriage return, vertical tab, form feed). -/
def isWsChar (c : Char) : Bool :=
  c = ' ' || c = '\t' || c = '\n' || c = '\x0d' || c = '\x0b' || c = '\x0c'

/-- ASCII decimal digit, the JS `\d` class. -/
def isDigitChar (c : Char) : Bool :=
  '0' ≤ c && c ≤ '9'

/-- JS `String.prototype.trim` (drop whitespace from both ends). -/
def trimChars (l : List Char) : List Char :=
  ((l.dropWhile isWsChar).reverse.dropWhile isWsChar).reverse

/-- Does `p` occur as a leading segment of `l`? (JS `startsWith`). -/
def leadsWith : List Char → List Char → Bool
  | [], _ => true
  | _ :: _, [] => false
  | p :: ps, c :: cs => p = c && leadsWith ps cs

/-- JS `String.prototype.split` with a single-character separator. -/
def splitOnChar (sep : Char) : List Char → List (List Char)
  | [] => [[]]
  | c :: cs =>
    let rest := splitOnChar sep cs
    if c = sep then [] :: rest
    else
      match rest with
      | [] => [[c]]
      | r :: rs => (c :: r) :: rs

/-- JS `String.prototype.includes` with a single-character needle. -/
def containsChar (l : List Char) (c : Char) : Bool :=
  l.any (· = c)

/-- First occurrence of `pat` as a segment of `l`: chars before it and
chars after it.  Models JS `String.prototype.replace` with a plain
string pattern (which replaces only the first occurrence). -/
def splitFirstSeg (pat : List Char) : List Char → Option (List Char × List Char)
  | [] => if pat = [] then some ([], []) else none
  | c :: cs =>
    if leadsWith pat (c :: cs) then some ([], (c :: cs).drop pat.length)
    else
      match splitFirstSeg pat cs with
      | some (pre, post) => some (c :: pre, post)
      | none => none

/-- JS `str.replace(pat, repl)` with plain-string `pat`: first occurrence only. -/
def replaceFirstSeg (pat repl l : List Char) : List Char :=
  match splitFirstSeg pat l with
  | some (pre, post) => pre ++ repl ++ post
  | none => l

/-! ## Cleaning (`cleanDescription`, changelog.ts lines 24-60)

Each regex substitution of the source is modelled by a hand-rolled
character-level function with the same semantics on the pattern used. -/

/-- `desc.replace(/^[.,:;\-)\]]+\s*/, "")`: strip one leading run of
connector punctuation followed by whitespace.  (No replacement happens
when the punctuation run is empty.) -/
def stripLeadPunct (l : List Char) : List Char :=
  let isP : Char → Bool := fun c =>
    c = '.' || c = ',' || c = ':' || c = ';' || c = '-' || c = ')' || c = ']'
  let run := l.takeWhile isP
  if run.isEmpty then l else (l.dropWhile isP).dropWhile isWsChar

/-- Fuel-driven worker for `stripMdLinks` (fuel bounds the scan; any
fuel of at least the input length is enough). -/
def stripMdLinksF : Nat → List Char → List Char
  | 0, l => l
  | _ + 1, [] => []
  | fuel + 1, '[' :: cs =>
    let text := cs.takeWhile (· ≠ ']')
    let rest := cs.dropWhile (· ≠ ']')
    match text, rest with
    | _ :: _, ']' :: '(' :: cs2 =>
      let url := cs2.takeWhile (· ≠ ')')
      let rest2 := cs2.dropWhile (· ≠ ')')
      match url, rest2 with
      | _ :: _, ')' :: cs3 => text ++ stripMdLinksF fuel cs3
      | _, _ => '[' :: stripMdLinksF fuel cs
    | _, _ => '[' :: stripMdLinksF fuel cs
  | fuel + 1, c :: cs => c :: stripMdLinksF fuel cs

/-- `desc.replace(/\[([^\]]+)\]\([^)]+\)/g, "$1")`: rewrite every
markdown link `[text](url)` to `text`.  At each `[` the matcher needs a
nonempty `]`-free text, `](`, a nonempty `)`-free url and `)`; on
failure the scan resumes at the next character, as the JS engine would
try the next start position. -/
def stripMdLinks (l : List Char) : List Char :=
  stripMdLinksF l.length l

/-- Fuel-driven worker for `stripUrls`. -/
def stripUrlsF : Nat → List Char → List Char
  | 0, l => l
  | _ + 1, [] => []
  | fuel + 1, c :: cs =>
    let l := c :: cs
    let afterScheme : Option (List Char) :=
      if leadsWith ['h','t','t','p','s',':','/','/'] l then
        some (l.drop 8)
      else if leadsWith ['h','t','t','p',':','/','/'] l then
        some (l.drop 7)
      else none
    match afterScheme with
    | some rest =>
      match rest.takeWhile (fun d => !isWsChar d), rest.dropWhile (fun d => !isWsChar d) with
      | _ :: _, rest2 => stripUrlsF fuel rest2
      | [], _ => c :: stripUrlsF fuel cs
    | none => c :: stripUrlsF fuel cs

/-- `desc.replace(/https?:\/\/\S+/g, "")`: delete every bare URL
(scheme `http` or `https`, `://`, then a maximal nonempty run of
non-whitespace). -/
def stripUrls (l : List Char) : List Char :=
  stripUrlsF l.length l

/-- `desc.replace(/^##\s*/, "")`. -/
def stripHeading (l : List Char) : List Char :=
  match l with
  | '#' :: '#' :: rest => rest.dropWhile isWsChar
  | _ => l

/-- `desc.replace(/^\d+\):\s*/, "")`: leading digits, then `):`, then
whitespace. -/
def stripNumColon (l : List Char) : List Char :=
  let digits := l.takeWhile isDigitChar
  match digits, l.dropWhile isDigitChar with
  | _ :: _, ')' :: ':' :: rest => rest.dropWhile isWsChar
  | _, _ => l

/-- `desc.replace(/^[):\]\[]+\s*/, "")`: leading cluster of stray
brackets/parens/colons plus whitespace. -/
def stripStray (l : List Char) : List Char :=
  let isS : Char → Bool := fun c => c = ')' || c = ':' || c = ']' || c = '['
  let run := l.takeWhile isS
  if run.isEmpty then l else (l.dropWhile isS).dropWhile isWsChar

/-- `desc.replace(/^nightly\s*/i, "")`. -/
def stripNightly (l : List Char) : List Char :=
  match l with
  | a :: b :: c :: d :: e :: f :: g :: rest =>
    if [a.toLower, b.toLower, c.toLower, d.toLower, e.toLower, f.toLower, g.toLower]
        = ['n','i','g','h','t','l','y'] then
      rest.dropWhile isWsChar
    else l
  | _ => l

/-- Fuel-driven worker for `collapseNewlineRuns`. -/
def collapseNewlineRunsF : Nat → List Char → List Char
  | 0, l => l
  | _ + 1, [] => []
  | fuel + 1, c :: cs =>
    if isWsChar c then
      let run := (c :: cs).takeWhile isWsChar
      let rest := (c :: cs).dropWhile isWsChar
      if containsChar run '\n' then ' ' :: collapseNewlineRunsF fuel rest
      else run ++ collapseNewlineRunsF fuel rest
    else c :: collapseNewlineRunsF fuel cs

/-- `desc.replace(/\s*\n\s*/g, " ")`: every maximal whitespace run that
contains a newline collapses to a single space (the greedy `\s*` on both
sides of the `\n` absorbs the whole run). -/
def collapseNewlineRuns (l : List Char) : List Char :=
  collapseNewlineRunsF l.length l

/-- Fuel-driven worker for `collapseWsRuns`. -/
def collapseWsRunsF : Nat → List Char → List Char
  | 0, l => l
  | _ + 1, [] => []
  | fuel + 1, c :: cs =>
    if isWsChar c then ' ' :: collapseWsRunsF fuel (cs.dropWhile isWsChar)
    else c :: collapseWsRunsF fuel cs

/-- `desc.replace(/\s+/g, " ")`: each maximal nonempty whitespace run
becomes a single space. -/
def collapseWsRuns (l : List Char) : List Char :=
  collapseWsRunsF l.length l

/-- `cleanDescription` (changelog.ts lines 24-60): normalize one raw
description fragment, applying each substitution of the source in order
and returning `""` for fragments that begin mid-sentence. -/
def cleanDescription (s : String) : String :=
  let l := trimChars s.data
  let l := stripLeadPunct l
  let l := stripMdLinks l
  let l := stripUrls l
  let l := stripHeading l
  let l := stripNumColon l
  let l := stripStray l
  let l := stripNightly l
  let l := collapseNewlineRuns l
  let l := collapseWsRuns l
  if leadsWith ['o','f',' '] l || leadsWith ['u','n','t','i','l',' '] l then ""
  else String.mk (trimChars l)

/-! ## A small backtracking regex matcher with JS semantics

Ordered alternation, greedy and lazy quantifiers via backtracking,
zero-width lookahead (atomic after its first success, as in
ECMAScript), capture groups, leftmost-match search and a `lastIndex`
style global-exec loop.  A fuel parameter bounds recursion depth; all
uses supply fuel that is large relative to the input, and every
concrete evaluation below is checked on that fuel. -/

/-- Capture environment: group index to captured text. -/
abbrev Caps := List (Nat × List Char)

/-- Record/overwrite capture `n`. -/
def setCap (n : Nat) (v : List Char) : Caps → Caps
  | [] => [(n, v)]
  | (m, w) :: rest => if m = n then (n, v) :: rest else (m, w) :: setCap n v rest

/-- Read back capture `n`. -/
def getCap (caps : Caps) (n : Nat) : Option (List Char) :=
  match caps.find? (fun p => p.fst = n) with
  | some p => some p.snd
  | none => none

/-- Regex abstract syntax: exactly the constructs appearing in the
patterns of changelog.ts. -/
inductive Pat where
  | cls (p : Char → Bool)
  | lit (s : List Char)
  | seq (a b : Pat)
  | alt (a b : Pat)
  | star (isLazy : Bool) (p : Pat)
  | opt (p : Pat)
  | look (p : Pat)
  | grp (n : Nat) (p : Pat)
  | bos
  | eos

/-- Backtracking matcher in continuation style.  `rest` is the input
suffix at position `i`; the continuation receives suffix, position and
captures and either accepts (returning the final end position and
captures) or forces backtracking. -/
def matchPat : Nat → Pat → List Char → Nat → Caps →
    (List Char → Nat → Caps → Option (Nat × Caps)) → Option (Nat × Caps)
  | 0, _, _, _, _, _ => none
  | fuel + 1, pat, rest, i, caps, k =>
    match pat with
    | .cls p =>
      match rest with
      | [] => none
      | c :: rest2 => if p c then k rest2 (i + 1) caps else none
    | .lit s =>
      if leadsWith s rest then k (rest.drop s.length) (i + s.length) caps else none
    | .seq a b =>
      matchPat fuel a rest i caps (fun r j cp => matchPat fuel b r j cp k)
    | .alt a b =>
      match matchPat fuel a rest i caps k with
      | some res => some res
      | none => matchPat fuel b rest i caps k
    | .star isLazy p =>
      if isLazy then
        match k rest i caps with
        | some res => some res
        | none =>
          matchPat fuel p rest i caps (fun r j cp =>
            if j = i then none else matchPat fuel (.star isLazy p) r j cp k)
      else
        match matchPat fuel p rest i caps (fun r j cp =>
            if j = i then none else matchPat fuel (.star isLazy p) r j cp k) with
        | some res => some res
        | none => k rest i caps
    | .opt p =>
      match matchPat fuel p rest i caps k with
      | some res => some res
      | none => k rest i caps
    | .look p =>
      match matchPat fuel p rest i caps (fun _ _ cp => some (i, cp)) with
      | some (_, cp) => k rest i cp
      | none => none
    | .grp n p =>
      matchPat fuel p rest i caps (fun r j cp => k r j (setCap n (rest.take (j - i)) cp))
    | .bos => if i = 0 then k rest i caps else none
    | .eos => match rest with | [] => k rest i caps | _ :: _ => none

/-- Leftmost match at or after position `i`: returns
`(start, end, captures, suffix at start)`. -/
def findFrom (p : Pat) (mfuel : Nat) : Nat → List Char → Option (Nat × Nat × Caps × List Char)
  | i, rest =>
    match matchPat mfuel p rest i [] (fun _ j cp => some (j, cp)) with
    | some (e, cp) => some (i, e, cp, rest)
    | none =>
      match rest with
      | [] => none
      | _ :: tl => findFrom p mfuel (i + 1) tl

/-- One regex match: matched text plus captures. -/
structure MatchRes where
  mtext : List Char
  caps : Caps

/-- Fuel for the matcher, generous relative to the input length. -/
def mfuelFor (l : List Char) : Nat :=
  8 * l.length + 400

/-- `str.match(re)` without the `g` flag: first match only. -/
def matchFirst (p : Pat) (l : List Char) : Option MatchRes :=
  match findFrom p (mfuelFor l) 0 l with
  | some (s, e, cp, restAtS) => some ⟨restAtS.take (e - s), cp⟩
  | none => none

/-- Global exec loop: repeated leftmost search continuing from each
match end (`lastIndex`), advancing one position past empty matches. -/
def execAllF (p : Pat) (mfuel : Nat) : Nat → Nat → List Char → List MatchRes
  | 0, _, _ => []
  | fuel + 1, i, rest =>
    match findFrom p mfuel i rest with
    | none => []
    | some (s, e, cp, restAtS) =>
      let txt := restAtS.take (e - s)
      let consumed := if s < e then e - s else 1
      ⟨txt, cp⟩ :: execAllF p mfuel fuel (s + consumed) (restAtS.drop consumed)

/-- `re.exec` loop / `str.match(re)` with the `g` flag. -/
def execAll (p : Pat) (l : List Char) : List MatchRes :=
  execAllF p (mfuelFor l) (l.length + 1) 0 l

/-! ## The concrete patterns of changelog.ts -/

/-- Right-nested sequence of patterns. -/
def seqs (l : List Pat) : Pat :=
  l.foldr .seq (.lit [])

/-- `\s*` (greedy). -/
def wsStar : Pat := .star false (.cls isWsChar)

/-- `\d+` (greedy). -/
def dPlus : Pat := .seq (.cls isDigitChar) (.star false (.cls isDigitChar))

/-- `p+` (greedy). -/
def plusP (p : Pat) : Pat := .seq p (.star false p)

/-- `\d+\.\d+\.\d+`. -/
def verPat : Pat := seqs [dPlus, .lit ['.'], dPlus, .lit ['.'], dPlus]

/-- `\d+\.\d+\.x`. -/
def wildPat : Pat := seqs [dPlus, .lit ['.'], dPlus, .lit ['.', 'x']]

/-- Pattern of `extractIndividualPatches` (line 77):
`(\d+\.\d+\.\d+)\s*:?\s*-?\s*([^-:0-9][^0-9]*?)(?=\s*-\s*\d+\.\d+\.\d+|\n|$)`. -/
def patInline : Pat :=
  seqs [ .grp 1 verPat, wsStar, .opt (.lit [':']), wsStar, .opt (.lit ['-']), wsStar,
         .grp 2 (.seq (.cls fun c => !(c = '-' || c = ':' || isDigitChar c))
                      (.star true (.cls fun c => !isDigitChar c))),
         .look (.alt (seqs [wsStar, .lit ['-'], wsStar, verPat])
                     (.alt (.lit ['\n']) .eos)) ]

/-- Pattern of the line-anchored strategy (line 301):
`(?:^|\n)(\d+\.\d+\.\d+)\s*:?\s*-?\s*([^-:0-9][^0-9\n]*?)(?=\n|$)`. -/
def patLine : Pat :=
  seqs [ .alt .bos (.lit ['\n']), .grp 1 verPat, wsStar, .opt (.lit [':']), wsStar,
         .opt (.lit ['-']), wsStar,
         .grp 2 (.seq (.cls fun c => !(c = '-' || c = ':' || isDigitChar c))
                      (.star true (.cls fun c => !(isDigitChar c || c = '\n')))),
         .look (.alt (.lit ['\n']) .eos) ]

/-- Pattern of the section strategy (line 254):
`(?:^|\n)(\d+\.\d+\.x)[\s\S]*?(?=\n\d+\.\d+\.x|\n\d{3,4}|\Z)`.
In a JS regex `\Z` is an identity escape for the literal character `Z`,
not an end anchor, and is modelled as such. -/
def patSection : Pat :=
  seqs [ .alt .bos (.lit ['\n']), .grp 1 wildPat, .star true (.cls fun _ => true),
         .look (.alt (.seq (.lit ['\n']) wildPat)
                     (.alt (seqs [.lit ['\n'], .cls isDigitChar, .cls isDigitChar,
                                  .cls isDigitChar, .opt (.cls isDigitChar)])
                           (.lit ['Z']))) ]

/-- `(\d+\.\d+\.x)` used as `section.match(...)` (line 257). -/
def patWildFind : Pat := .grp 1 wildPat

/-- Pattern of `extractDetailLink` (line 65):
`##\s*\[([^\]]+)\]\(([^)]+)\)`. -/
def patDetailLink : Pat :=
  seqs [ .lit ['#','#'], wsStar, .lit ['['], .grp 1 (plusP (.cls (· ≠ ']'))),
         .lit [']','('], .grp 2 (plusP (.cls (· ≠ ')'))), .lit [')'] ]

/-- Pattern of the section description (line 263):
`##\s*\[[^\]]+\]\([^)]+\)\s*\n\n([\s\S]*?)(?=\n\n|$)`. -/
def patSectionDesc : Pat :=
  seqs [ .lit ['#','#'], wsStar, .lit ['['], plusP (.cls (· ≠ ']')), .lit [']','('],
         plusP (.cls (· ≠ ')')), .lit [')'], wsStar, .lit ['\n','\n'],
         .grp 1 (.star true (.cls fun _ => true)),
         .look (.alt (.lit ['\n','\n']) .eos) ]

/-- Pattern of the Patches-subsection strategy (line 326), with the `s`
flag so `.` matches anything; `\Z` is again the literal `Z`:
`(?:###\s*Patches|\*\*Patches\*\*)(.*?)(?=###|\*\*[A-Z]|\Z)`. -/
def patPatches : Pat :=
  seqs [ .alt (seqs [.lit ['#','#','#'], wsStar, .lit ['P','a','t','c','h','e','s']])
              (.lit ['*','*','P','a','t','c','h','e','s','*','*']),
         .grp 1 (.star true (.cls fun _ => true)),
         .look (.alt (.lit ['#','#','#'])
                     (.alt (.seq (.lit ['*','*']) (.cls fun c => 'A' ≤ c && c ≤ 'Z'))
                           (.lit ['Z']))) ]

/-! ## Data model -/

/-- `ChangelogEntry` (changelog.ts lines 6-10): one consolidated
version record.  An absent `detailLink` (JS `undefined`) is `none`. -/
structure ChangelogEntry where
  version : String
  description : String
  detailLink : Option String := none
deriving DecidableEq

/-- The value type of the transient patch map:
`{ description: string; detailLink?: string }`. -/
structure PatchData where
  description : String
  detailLink : Option String := none
deriving DecidableEq

/-- Association list with string keys in insertion order.  Models a JS
object used as a map: all keys used by the program contain a dot, so
they are plain string keys and JS enumerates them in insertion order,
with in-place update keeping the original position. -/
abbrev AList (β : Type) := List (String × β)

/-- `obj[k]` read. -/
def alLookup {β : Type} : AList β → String → Option β
  | [], _ => none
  | (k0, v0) :: rest, k => if k0 = k then some v0 else alLookup rest k

/-- `obj[k] = v`: update in place (original position) or append. -/
def alSet {β : Type} (m : AList β) (k : String) (v : β) : AList β :=
  match m with
  | [] => [(k, v)]
  | (k0, v0) :: rest => if k0 = k then (k, v) :: rest else (k0, v0) :: alSet rest k v

/-- In-place update of the value stored at `k` (no-op when absent). -/
def alModify {β : Type} : AList β → String → (β → β) → AList β
  | [], _, _ => []
  | (k0, v0) :: rest, k, f =>
    if k0 = k then (k0, f v0) :: rest else (k0, v0) :: alModify rest k f

/-- `PatchMap`: the transient per-update map from version string to its
current best description/link. -/
abbrev PatchMap := AList PatchData

/-! ## Extraction -/

/-- `extractDetailLink` (changelog.ts lines 63-70): first
`## [title](link)` heading link of a section, if any.  The JS truthiness
test `linkMatch[2]` is vacuous since the group is `([^)]+)`. -/
def extractDetailLink (content : List Char) : Option String :=
  match matchFirst patDetailLink content with
  | some m =>
    match getCap m.caps 2 with
    | some (c :: cs) => some (String.mk (c :: cs))
    | _ => none
  | none => none

/-- `extractIndividualPatches` (changelog.ts lines 73-96): global scan
with `patInline`; candidates with a version not starting `0.` are
skipped, descriptions are cleaned, and only cleaned descriptions of
length strictly greater than 10 are stored (unconditionally
overwriting any earlier candidate for the same version). -/
def extractIndividualPatches (content : String) : PatchMap :=
  (execAll patInline content.data).foldl
    (fun patches m =>
      match getCap m.caps 1, getCap m.caps 2 with
      | some verL, some descL =>
        if leadsWith ['0', '.'] verL then
          let cleanDesc := cleanDescription (String.mk descL)
          if cleanDesc ≠ "" ∧ 10 < cleanDesc.length then
            alSet patches (String.mk verL) { description := cleanDesc }
          else patches
        else patches
      | _, _ => patches)
    []

/-- The blacklist of the final sweep (changelog.ts line 349). -/
def descBlacklist : List String := ["](", "]", ")", "](http", ":", ""]

/-- Fold step of the section strategy for patch-level candidates
(changelog.ts lines 276-284): a candidate is stored only when its
version is absent, inheriting the section's detail link when it brings
none of its own; an existing entry is left untouched. -/
def sectionPatchStep (detailLink : Option String) (ap : PatchMap)
    (entry : String × PatchData) : PatchMap :=
  match alLookup ap entry.fst with
  | none =>
    let ap2 := alSet ap entry.fst entry.snd
    match detailLink, entry.snd.detailLink with
    | some dl, none =>
      alModify ap2 entry.fst (fun pd => { pd with detailLink := some dl })
    | _, _ => ap2
  | some _ => ap

/-- Fold step of the inline-run strategy (changelog.ts lines 292-298):
a candidate is stored when its version is absent; otherwise only a
detail link is adopted (when the stored entry has none), and the stored
description is never replaced. -/
def inlineMergeStep (ap : PatchMap) (entry : String × PatchData) : PatchMap :=
  match alLookup ap entry.fst with
  | none => alSet ap entry.fst entry.snd
  | some existing =>
    match existing.detailLink, entry.snd.detailLink with
    | none, some dl => alSet ap entry.fst { existing with detailLink := some dl }
    | _, _ => ap

/-- Fold step of the line-anchored strategy (changelog.ts lines
313-322) after its guards: overwrite when the new cleaned description
is strictly longer, always carrying over the previously stored link
(`detailLink: existingLink`). -/
def lineOverwriteStep (ap : PatchMap) (version : String) (cleanDesc : String) : PatchMap :=
  match alLookup ap version with
  | none => alSet ap version { description := cleanDesc, detailLink := none }
  | some existing =>
    if existing.description.length < cleanDesc.length then
      alSet ap version { description := cleanDesc, detailLink := existing.detailLink }
    else ap

/-- Fold step of the Patches-subsection strategy (changelog.ts lines
334-342): overwrite when the new description is strictly longer, the
link being the existing one if present, else the candidate's
(`existingLink || data.detailLink`). -/
def patchesMergeStep (ap : PatchMap) (entry : String × PatchData) : PatchMap :=
  match alLookup ap entry.fst with
  | none =>
    alSet ap entry.fst
      { description := entry.snd.description, detailLink := entry.snd.detailLink }
  | some existing =>
    if existing.description.length < entry.snd.description.length then
      alSet ap entry.fst
        { description := entry.snd.description,
          detailLink := (existing.detailLink).orElse (fun _ => entry.snd.detailLink) }
    else ap

/-- Strategy 1 of `updateChangelog` (changelog.ts lines 254-286):
wildcard minor-series sections.  Each section contributes its label's
heading description and link, then its patch-level candidates via
`sectionPatchStep`. -/
def extractPhase1 (markdownContent : String) : PatchMap :=
  ((execAll patSection markdownContent.data).map MatchRes.mtext).foldl
    (fun allPatches sec =>
      match matchFirst patWildFind sec with
      | none => allPatches
      | some vm =>
        match getCap vm.caps 1 with
        | none => allPatches
        | some verL =>
          let detailLink := extractDetailLink sec
          let ap1 :=
            match matchFirst patSectionDesc sec with
            | some dm =>
              match getCap dm.caps 1 with
              | some (c :: cs) =>
                let desc := cleanDescription (String.mk (c :: cs))
                if desc ≠ "" ∧ 10 < desc.length then
                  alSet allPatches (String.mk verL)
                    { description := desc, detailLink := detailLink }
                else allPatches
              | _ => allPatches
            | none => allPatches
          (extractIndividualPatches (String.mk sec)).foldl (sectionPatchStep detailLink) ap1)
    []

/-- Strategy 2 (changelog.ts lines 289-298): inline runs over the whole
content, folded with `inlineMergeStep`. -/
def extractPhase2 (markdownContent : String) (m : PatchMap) : PatchMap :=
  (extractIndividualPatches markdownContent).foldl inlineMergeStep m

/-- Strategy 3 (changelog.ts lines 301-323): line-anchored versions,
folded with `lineOverwriteStep` after the `0.` and length guards. -/
def extractPhase3 (markdownContent : String) (m : PatchMap) : PatchMap :=
  (execAll patLine markdownContent.data).foldl
    (fun ap mr =>
      match getCap mr.caps 1, getCap mr.caps 2 with
      | some verL, some descL =>
        if leadsWith ['0', '.'] verL then
          let cleanDesc := cleanDescription (String.mk descL)
          if cleanDesc ≠ "" ∧ 10 < cleanDesc.length then
            lineOverwriteStep ap (String.mk verL) cleanDesc
          else ap
        else ap
      | _, _ => ap)
    m

/-- Strategy 4 (changelog.ts lines 326-343): Patches subsections,
folded with `patchesMergeStep`. -/
def extractPhase4 (markdownContent : String) (m : PatchMap) : PatchMap :=
  (execAll patPatches markdownContent.data).foldl
    (fun ap mr =>
      match getCap mr.caps 1 with
      | none => ap
      | some secL =>
        (extractIndividualPatches (String.mk (trimChars secL))).foldl patchesMergeStep ap)
    m

/-- The pure processing core of `updateChangelog` (changelog.ts lines
250-352): the four extraction strategies folded in source order into
one `PatchMap`, followed by the final invalid-description sweep
(lines 346-352).  Everything after the fetch and before
`consolidateVersions` is a pure function of the fetched markdown. -/
def extractAllPatches (markdownContent : String) : PatchMap :=
  (extractPhase4 markdownContent
    (extractPhase3 markdownContent
      (extractPhase2 markdownContent
        (extractPhase1 markdownContent)))).filter
    (fun p =>
      !(descBlacklist.contains p.snd.description || decide (p.snd.description.length < 10)))

/-! ## Consolidation and ordering -/

/-- Decimal digits to a natural number. -/
def digitsToNat (ds : List Char) : Nat :=
  ds.foldl (fun a c => a * 10 + (c.toNat - 48)) 0

/-- JS `parseInt(s)` in base 10: optional whitespace and sign, then a
leading digit run; `none` models `NaN`. -/
def parseIntJS (s : List Char) : Option Int :=
  let t := s.dropWhile isWsChar
  match t with
  | '-' :: rest =>
    match rest.takeWhile isDigitChar with
    | [] => none
    | ds => some (-(digitsToNat ds : Int))
  | '+' :: rest =>
    match rest.takeWhile isDigitChar with
    | [] => none
    | ds => some (digitsToNat ds : Int)
  | _ =>
    match t.takeWhile isDigitChar with
    | [] => none
    | ds => some (digitsToNat ds : Int)

/-- `v.split(".").map(n => isNaN(parseInt(n)) ? 0 : parseInt(n))`,
the component parse shared by both sorts and the run detection. -/
def versionParts (v : String) : List Int :=
  (splitOnChar '.' v.data).map (fun p => (parseIntJS p).getD 0)

/-- Comparison tail when the left tuple is exhausted: the first
nonzero remaining right component decides. -/
def cmpZerosL : List Int → Int
  | [] => 0
  | b :: bs => if 0 ≠ b then 0 - b else cmpZerosL bs

/-- Comparison tail when the right tuple is exhausted. -/
def cmpZerosR : List Int → Int
  | [] => 0
  | a :: as_ => if a ≠ 0 then a else cmpZerosR as_

/-- The comparator loop of both sorts: first differing component
decides, missing components read as 0 (`aParts[i] || 0`). -/
def cmpInts : List Int → List Int → Int
  | [], bs => cmpZerosL bs
  | as_, [] => cmpZerosR as_
  | a :: as_, b :: bs => if a ≠ b then a - b else cmpInts as_ bs

/-- JS `Array.prototype.sort` with a consistent comparator: stable, so
modelled by insertion sort on `cmp ≤ 0`. -/
def jsSortBy {α : Type} (cmp : α → α → Int) (l : List α) : List α :=
  List.insertionSort (fun a b => cmp a b ≤ 0) l

/-- `getVersionTuple` (changelog.ts lines 195-207): right endpoint of a
range, first `x` replaced by `999`, then component parse. -/
def getVersionTuple (versionStr : String) : List Int :=
  let l := versionStr.data
  let l := if containsChar l '-' then ((splitOnChar '-' l).drop 1).headD [] else l
  let l := replaceFirstSeg ['x'] ['9', '9', '9'] l
  (splitOnChar '.' l).map (fun p => (parseIntJS p).getD 0)

/-- The newest-first comparator of the final sort (lines 209-221):
`bVal - aVal` at the first differing component. -/
def cmpEntriesDesc (a b : ChangelogEntry) : Int :=
  cmpInts (getVersionTuple b.version) (getVersionTuple a.version)

/-- The final ordering pass of `consolidateVersions` (lines 194-221). -/
def orderChangelog (l : List ChangelogEntry) : List ChangelogEntry :=
  jsSortBy cmpEntriesDesc l

/-- One description group while inverting the patch map. -/
structure GroupData where
  versions : List String
  detailLink : Option String
deriving DecidableEq

/-- One step of the grouping loop (changelog.ts lines 103-116). -/
def groupStep (grouped : AList GroupData) (entry : String × PatchData) : AList GroupData :=
  let version := entry.fst
  let data := entry.snd
  let grouped :=
    match alLookup grouped data.description with
    | none => grouped ++ [(data.description, ⟨[], data.detailLink⟩)]
    | some _ => grouped
  let grouped :=
    alModify grouped data.description (fun g => { g with versions := g.versions ++ [version] })
  match alLookup grouped data.description with
  | some g =>
    match g.detailLink, data.detailLink with
    | none, some dl =>
      alModify grouped data.description (fun g2 => { g2 with detailLink := some dl })
    | _, _ => grouped
  | none => grouped

/-- The consecutiveness test of the range loop (lines 162-165): both
parses have exactly three components, equal major and minor, and the
patch increases by one. -/
def consecCheck (prev curr : String) : Bool :=
  match versionParts prev, versionParts curr with
  | [a0, a1, a2], [b0, b1, b2] => decide (a0 = b0 ∧ a1 = b1 ∧ a2 + 1 = b2)
  | _, _ => false

/-- Worker of the range partition (lines 148-173): `current` is the
run being grown, `prev` the previously visited version. -/
def buildRunsGo (prev : String) (current : List String) : List String → List (List String)
  | [] => [current]
  | v :: rest =>
    if consecCheck prev v then buildRunsGo v (current ++ [v]) rest
    else current :: buildRunsGo v [v] rest

/-- Partition a sorted version list into maximal consecutive runs. -/
def buildRuns : List String → List (List String)
  | [] => []
  | v :: rest => buildRunsGo v [v] rest

/-- `consolidateVersions` (changelog.ts lines 99-224): group by
description, filter, sort each group, partition into consecutive runs,
emit one record per run, then order newest first. -/
def consolidateVersions (patchesDict : PatchMap) : List ChangelogEntry :=
  let grouped := patchesDict.foldl groupStep []
  let consolidated := grouped.foldl
    (fun acc g =>
      let desc := g.fst
      let data := g.snd
      if desc = "" ∨ desc.length < 10 then acc
      else
        let validVersions := data.versions.filter (fun v => leadsWith ['0', '.'] v.data)
        match validVersions with
        | [] => acc
        | _ :: _ =>
          let sorted := jsSortBy (fun a b => cmpInts (versionParts a) (versionParts b))
            validVersions
          let ranges := buildRuns sorted
          ranges.foldl
            (fun acc2 rangeGroup =>
              match rangeGroup with
              | [v] => acc2 ++ [⟨v, desc, data.detailLink⟩]
              | _ =>
                match rangeGroup.head?, rangeGroup.getLast? with
                | some first, some last =>
                  acc2 ++ [⟨first ++ "-" ++ last, desc, data.detailLink⟩]
                | _, _ => acc2)
            acc)
    []
  orderChangelog consolidated

/-- The full pure pipeline of one `updateChangelog` run on fetched
markdown (changelog.ts lines 250-360): the returned record sequence. -/
def updateChangelogFromMarkdown (markdownContent : String) : List ChangelogEntry :=
  consolidateVersions (extractAllPatches markdownContent)

/-! ## Persistence reads -/

/-- Loop of `getLatestVersion` (lines 393-397): first entry whose
version does not contain an `x`. -/
def findFirstNonX : List ChangelogEntry → Option ChangelogEntry
  | [] => none
  | e :: rest => if containsChar e.version.data 'x' then findFirstNonX rest else some e

/-- `getLatestVersion` (changelog.ts lines 385-401) applied to the
loaded record sequence. -/
def getLatestVersion (changelog : List ChangelogEntry) : Option ChangelogEntry :=
  match changelog with
  | [] => none
  | first :: _ =>
    match findFirstNonX changelog with
    | some e => some e
    | none => some first

/-! ## Persistence: the JSON snapshot

`updateChangelog` writes `JSON.stringify(changelog, null, 2)` and
`loadChangelog` reads it back with `JSON.parse` under `try`/`catch`.
The snapshot text is modelled exactly (two-space pretty printing,
`detailLink` omitted when absent); the parse exception is modelled by
an `Option`-valued parser. -/

/-- Lowercase hex digit, as emitted by `JSON.stringify`. -/
def hexDigit (n : Nat) : Char :=
  if n < 10 then Char.ofNat (48 + n) else Char.ofNat (87 + n)

/-- `JSON.stringify` escaping of one character: quote, backslash, the
short control escapes, `\u00XX` for the remaining control characters,
everything else verbatim. -/
def escapeChar (c : Char) : List Char :=
  if c = '"' then ['\\', '"']
  else if c = '\\' then ['\\', '\\']
  else if c = '\x08' then ['\\', 'b']
  else if c = '\x09' then ['\\', 't']
  else if c = '\x0a' then ['\\', 'n']
  else if c = '\x0c' then ['\\', 'f']
  else if c = '\x0d' then ['\\', 'r']
  else if c.toNat < 32 then
    ['\\', 'u', '0', '0', hexDigit (c.toNat / 16), hexDigit (c.toNat % 16)]
  else [c]

/-- Escape a whole string body. -/
def escList (l : List Char) : List Char :=
  l.foldr (fun c acc => escapeChar c ++ acc) []

/-- A JSON string literal including its quotes. -/
def quoteStr (s : String) : List Char :=
  '"' :: (escList s.data ++ ['"'])

/-- One record as rendered by `JSON.stringify(_, null, 2)` at array
depth one: `detailLink` is omitted when `undefined`. -/
def renderEntry (e : ChangelogEntry) : List Char :=
  [' ', ' ', '{', '\n'] ++ "    \"version\": ".data ++ quoteStr e.version ++
  [','] ++ ['\n'] ++ "    \"description\": ".data ++ quoteStr e.description ++
  (match e.detailLink with
   | none => []
   | some l => [','] ++ ['\n'] ++ "    \"detailLink\": ".data ++ quoteStr l) ++
  ['\n', ' ', ' ', '}']

/-- Entries joined by `,\n`. -/
def joinEntries : List ChangelogEntry → List Char
  | [] => []
  | [e] => renderEntry e
  | e :: rest => renderEntry e ++ ',' :: '\n' :: joinEntries rest

/-- `JSON.stringify(changelog, null, 2)` (changelog.ts line 358). -/
def stringifyChangelog (l : List ChangelogEntry) : String :=
  match l with
  | [] => "[]"
  | _ :: _ => String.mk ('[' :: '\n' :: (joinEntries l ++ ['\n', ']']))

/-- JSON values (number syntax kept as raw text; it never occurs in a
snapshot written by the program). -/
inductive Json where
  | jnull
  | jbool (b : Bool)
  | jnum (raw : List Char)
  | jstr (s : String)
  | jarr (items : List Json)
  | jobj (fields : List (String × Json))

/-- JSON whitespace (which is stricter than the JS `\s` class). -/
def isJsonWs (c : Char) : Bool :=
  c = ' ' || c = '\t' || c = '\n' || c = '\x0d'

/-- Hex digit value. -/
def hexVal (c : Char) : Option Nat :=
  if '0' ≤ c ∧ c ≤ '9' then some (c.toNat - 48)
  else if 'a' ≤ c ∧ c ≤ 'f' then some (c.toNat - 87)
  else if 'A' ≤ c ∧ c ≤ 'F' then some (c.toNat - 70)
  else none

/-- Body of a JSON string literal after the opening quote: returns the
decoded characters and the text after the closing quote.  Unescaped
control characters are rejected, escapes are decoded; a `\uXXXX`
naming a surrogate half is rejected (a Lean `Char` cannot hold it;
snapshots written by the program never contain one). -/
def parseStringBody : Nat → List Char → Option (List Char × List Char)
  | 0, _ => none
  | _ + 1, [] => none
  | fuel + 1, c :: cs =>
    if c = '"' then some ([], cs)
    else
      let step : Option (Char × List Char) :=
        if c = '\\' then
          match cs with
          | [] => none
          | e :: cs2 =>
            if e = '"' then some ('"', cs2)
            else if e = '\\' then some ('\\', cs2)
            else if e = '/' then some ('/', cs2)
            else if e = 'b' then some ('\x08', cs2)
            else if e = 'f' then some ('\x0c', cs2)
            else if e = 'n' then some ('\x0a', cs2)
            else if e = 'r' then some ('\x0d', cs2)
            else if e = 't' then some ('\x09', cs2)
            else if e = 'u' then
              match cs2 with
              | h1 :: h2 :: h3 :: h4 :: cs3 =>
                match hexVal h1, hexVal h2, hexVal h3, hexVal h4 with
                | some a, some b, some c3, some d =>
                  let n := ((a * 16 + b) * 16 + c3) * 16 + d
                  if n < 55296 ∨ 57343 < n then some (Char.ofNat n, cs3) else none
                | _, _, _, _ => none
              | _ => none
            else none
        else if c.toNat < 32 then none
        else some (c, cs)
      match step with
      | none => none
      | some (ch, rest) =>
        match parseStringBody fuel rest with
        | some (s, r) => some (ch :: s, r)
        | none => none

/-- A JSON number (sign, digits, optional fraction and exponent; the
raw text is kept). -/
def parseNumber (l : List Char) : Option (Json × List Char) :=
  let (sign, l1) := match l with
    | '-' :: rest => (['-'], rest)
    | _ => (([] : List Char), l)
  let intPart := l1.takeWhile isDigitChar
  let l2 := l1.dropWhile isDigitChar
  if intPart.isEmpty then none
  else
    let (frac, l3) := match l2 with
      | '.' :: rest =>
        let ds := rest.takeWhile isDigitChar
        if ds.isEmpty then (([] : List Char), l2)
        else ('.' :: ds, rest.dropWhile isDigitChar)
      | _ => ([], l2)
    let (expPart, l4) := match l3 with
      | e :: rest =>
        if e = 'e' ∨ e = 'E' then
          let (es, rest2) := match rest with
            | '+' :: r2 => (['+'], r2)
            | '-' :: r2 => (['-'], r2)
            | _ => (([] : List Char), rest)
          let ds := rest2.takeWhile isDigitChar
          if ds.isEmpty then (([] : List Char), l3)
          else (e :: es ++ ds, rest2.dropWhile isDigitChar)
        else ([], l3)
      | _ => ([], l3)
    some (.jnum (sign ++ intPart ++ frac ++ expPart), l4)

mutual

/-- Recursive-descent JSON value parser (leading whitespace allowed). -/
def parseValue : Nat → List Char → Option (Json × List Char)
  | 0, _ => none
  | fuel + 1, l =>
    match l.dropWhile isJsonWs with
    | '{' :: cs =>
      (match cs.dropWhile isJsonWs with
       | '}' :: rest => some (.jobj [], rest)
       | _ =>
         match parseFields fuel cs with
         | some (fs, rest) => some (.jobj fs, rest)
         | none => none)
    | '[' :: cs =>
      (match cs.dropWhile isJsonWs with
       | ']' :: rest => some (.jarr [], rest)
       | _ =>
         match parseItems fuel cs with
         | some (items, rest) => some (.jarr items, rest)
         | none => none)
    | '"' :: cs =>
      (match parseStringBody (cs.length + 1) cs with
       | some (s, rest) => some (.jstr (String.mk s), rest)
       | none => none)
    | 't' :: 'r' :: 'u' :: 'e' :: rest => some (.jbool true, rest)
    | 'f' :: 'a' :: 'l' :: 's' :: 'e' :: rest => some (.jbool false, rest)
    | 'n' :: 'u' :: 'l' :: 'l' :: rest => some (.jnull, rest)
    | c :: cs =>
      if c = '-' ∨ isDigitChar c then parseNumber (c :: cs) else none
    | [] => none

/-- Comma-separated array items up to the closing bracket. -/
def parseItems : Nat → List Char → Option (List Json × List Char)
  | 0, _ => none
  | fuel + 1, l =>
    match parseValue fuel l with
    | none => none
    | some (v, rest) =>
      match rest.dropWhile isJsonWs with
      | ',' :: rest2 =>
        (match parseItems fuel rest2 with
         | some (vs, r) => some (v :: vs, r)
         | none => none)
      | ']' :: rest2 => some ([v], rest2)
      | _ => none

/-- Comma-separated object fields up to the closing brace. -/
def parseFields : Nat → List Char → Option (List (String × Json) × List Char)
  | 0, _ => none
  | fuel + 1, l =>
    match l.dropWhile isJsonWs with
    | '"' :: cs =>
      (match parseStringBody (cs.length + 1) cs with
       | none => none
       | some (k, rest) =>
         match rest.dropWhile isJsonWs with
         | ':' :: rest2 =>
           (match parseValue fuel rest2 with
            | none => none
            | some (v, rest3) =>
              match rest3.dropWhile isJsonWs with
              | ',' :: rest4 =>
                (match parseFields fuel rest4 with
                 | some (fs, r) => some ((String.mk k, v) :: fs, r)
                 | none => none)
              | '}' :: rest4 => some ([(String.mk k, v)], rest4)
              | _ => none)
         | _ => none)
    | _ => none

end

/-- `JSON.parse`: a whole-input parse; `none` models the thrown
`SyntaxError`. -/
def jsonParse (s : String) : Option Json :=
  match parseValue (s.data.length + 1) s.data with
  | some (v, rest) => if rest.dropWhile isJsonWs = [] then some v else none
  | none => none

/-- View a JSON value as a string. -/
def asString : Json → Option String
  | .jstr s => some s
  | _ => none

/-- Spec-side view of one record object: `version` and `description`
strings, `detailLink` an optional string.  The TS cast
`as ChangelogEntry[]` performs no such runtime check; this decoder only
serves to state which parsed snapshot values denote record lists. -/
def decodeEntry : Json → Option ChangelogEntry
  | .jobj fields =>
    let fieldAt := fun k => ((fields.find? (fun p => p.fst = k)).map Prod.snd)
    match (fieldAt "version").bind asString, (fieldAt "description").bind asString with
    | some v, some d =>
      (match fieldAt "detailLink" with
       | none => some ⟨v, d, none⟩
       | some j =>
         match asString j with
         | some link => some ⟨v, d, some link⟩
         | none => none)
    | _, _ => none
  | _ => none

/-- Spec-side view of a full snapshot as a record array. -/
def decodeEntries : Json → Option (List ChangelogEntry)
  | .jarr items => items.mapM decodeEntry
  | _ => none

/-- `loadChangelog` (changelog.ts lines 368-382) over an abstract
storage state: `none` models a missing snapshot file, `some s` a file
holding text `s`.  A missing file returns `[]` (the `existsSync`
branch) and a `JSON.parse` exception is caught and returns `[]`; any
successfully parsed value is returned unchanged, because the source's
`return JSON.parse(data) as ChangelogEntry[]` (line 377) is a
compile-time cast with no runtime shape validation.  The result is
therefore modelled as the raw JSON value (`.jarr []` being the empty
array the two fallback branches return). -/
def loadChangelog (stored : Option String) : Json :=
  match stored with
  | none => .jarr []
  | some data =>
    match jsonParse data with
    | none => .jarr []
    | some v => v

/-- The snapshot text written by one `updateChangelog` run
(changelog.ts line 358). -/
def savedSnapshot (markdownContent : String) : String :=
  stringifyChangelog (updateChangelogFromMarkdown markdownContent)

/-! ## Spec-side definitions (for refinement comparison only)

These two predicates follow the specification's words, not the source,
and exist solely to state claims about what the spec asserts. -/

/-- Following the spec's glossary: a wildcard minor-series label is a
version string of the exact form `N.N.x` (two nonempty digit runs and
a literal `x`). -/
def specWildcardLabel (v : String) : Bool :=
  match splitOnChar '.' v.data with
  | [a, b, c] =>
    !a.isEmpty && a.all isDigitChar && !b.isEmpty && b.all isDigitChar && c = ['x']
  | _ => false

/-- Following the spec's §4.3 step 3: the strict three-component dotted
`0.x.y` form — major literally `0`, minor and patch nonempty digit
runs. -/
def specStrictTriple (v : String) : Bool :=
  match splitOnChar '.' v.data with
  | [a, b, c] =>
    a = ['0'] && !b.isEmpty && b.all isDigitChar && !c.isEmpty && c.all isDigitChar
  | _ => false

/-- The section labels a raw text contributes through the section
strategy (the first `(\d+\.\d+\.x)` match of each section). -/
def sectionLabels (text : String) : List String :=
  ((execAll patSection text.data).map MatchRes.mtext).filterMap
    (fun sec =>
      match matchFirst patWildFind sec with
      | some vm => (getCap vm.caps 1).map String.mk
      | none => none)

/-! ## Proof-support predicates -/

/-- Key-and-description invariant over patch maps: every entry's key
satisfies `K` and its description is meaningful (non-empty, longer than
10 characters). -/
def kdInv (K : String → Prop) (p : String × PatchData) : Prop :=
  K p.fst ∧ p.snd.description ≠ "" ∧ 10 < p.snd.description.length

/-- Provenance invariant of the description groups: each group's key is
the description of some map entry, and its versions are map keys. -/
def groupProv (m : PatchMap) (g : String × GroupData) : Prop :=
  (∃ q, q ∈ m ∧ g.fst = q.snd.description) ∧
  ∀ v ∈ g.snd.versions, v ∈ m.map Prod.fst

/-- Provenance of one consolidated record relative to the input map:
its description is some entry's description, and its version is a map
key passing the `0.` filter or the hyphen join of two such keys. -/
def recProv (m : PatchMap) (e : ChangelogEntry) : Prop :=
  (∃ q, q ∈ m ∧ e.description = q.snd.description) ∧
  ((∃ v, v ∈ m.map Prod.fst ∧ leadsWith ['0', '.'] v.data = true ∧ e.version = v) ∨
   (∃ v w, v ∈ m.map Prod.fst ∧ w ∈ m.map Prod.fst ∧
     leadsWith ['0', '.'] v.data = true ∧ leadsWith ['0', '.'] w.data = true ∧
     e.version = v ++ "-" ++ w))

/-- The JSON value denoted by one rendered record, used to factor the
snapshot round-trip proof. -/
def entryJson (e : ChangelogEntry) : Json :=
  .jobj ([("version", .jstr e.version), ("description", .jstr e.description)] ++
    match e.detailLink with
    | none => []
    | some l => [("detailLink", .jstr l)])

/-! ## Lemmas about the association-list primitives -/

theorem alLookup_alSet_self {β : Type} (m : AList β) (k : String) (v : β) :
    alLookup (alSet m k v) k = some v := by
  induction m with
  | nil => simp [alSet, alLookup]
  | cons p rest ih =>
    obtain ⟨k0, v0⟩ := p
    by_cases h : k0 = k
    · simp [alSet, h, alLookup]
    · simp [alSet, h, alLookup, ih]

theorem alLookup_alSet_ne {β : Type} (m : AList β) (k k' : String) (v : β)
    (h : k' ≠ k) : alLookup (alSet m k v) k' = alLookup m k' := by
  induction m with
  | nil => simp [alSet, alLookup, Ne.symm h]
  | cons p rest ih =>
    obtain ⟨k0, v0⟩ := p
    by_cases h0 : k0 = k
    · subst h0
      simp [alSet, alLookup, Ne.symm h]
    · simp [alSet, h0, alLookup, ih]

theorem alLookup_alModify_self {β : Type} (m : AList β) (k : String) (f : β → β) :
    alLookup (alModify m k f) k = (alLookup m k).map f := by
  induction m with
  | nil => simp [alModify, alLookup]
  | cons p rest ih =>
    obtain ⟨k0, v0⟩ := p
    by_cases h : k0 = k
    · subst h
      simp [alModify, alLookup]
    · simp [alModify, alLookup, h, ih]

theorem mem_alSet {β : Type} {m : AList β} {k : String} {v : β} {p : String × β}
    (h : p ∈ alSet m k v) : p ∈ m ∨ p = (k, v) := by
  induction m with
  | nil => simp [alSet] at h; simp [h]
  | cons q rest ih =>
    obtain ⟨k0, v0⟩ := q
    by_cases h0 : k0 = k
    · simp [alSet, h0] at h
      rcases h with h | h
      · right; simp [h]
      · left; simp [h]
    · simp [alSet, h0] at h
      rcases h with h | h
      · left; simp [h]
      · rcases ih h with h1 | h1
        · left; simp [h1]
        · right; exact h1

theorem mem_alModify {β : Type} {m : AList β} {k : String} {f : β → β}
    {p : String × β} (h : p ∈ alModify m k f) :
    ∃ q, q ∈ m ∧ p.fst = q.fst ∧ (p.snd = q.snd ∨ p.snd = f q.snd) := by
  induction m with
  | nil => simp [alModify] at h
  | cons q0 rest ih =>
    obtain ⟨k0, v0⟩ := q0
    by_cases h0 : k0 = k
    · simp [alModify, h0] at h
      rcases h with h | h
      · exact ⟨(k0, v0), by simp, by simp [h, h0], Or.inr (by simp [h])⟩
      · exact ⟨p, by simp [h], rfl, Or.inl rfl⟩
    · simp [alModify, h0] at h
      rcases h with h | h
      · exact ⟨(k0, v0), by simp, by simp [h], Or.inl (by simp [h])⟩
      · rcases ih h with ⟨q, hq, h1, h2⟩
        exact ⟨q, by simp [hq], h1, h2⟩

/-! ## The merge behavior of the four strategy folds -/

theorem sectionPatchStep_lookup (dl : Option String) (ap : PatchMap)
    (v : String) (pd : PatchData) :
    alLookup (sectionPatchStep dl ap (v, pd)) v =
      some (match alLookup ap v with
            | some ex => ex
            | none => ⟨pd.description, pd.detailLink.orElse (fun _ => dl)⟩) := by
  obtain ⟨pdd, pdl⟩ := pd
  cases hex : alLookup ap v with
  | some ex => simp [sectionPatchStep, hex]
  | none =>
    cases hdl : dl with
    | none =>
      cases pdl with
      | none => simp [sectionPatchStep, hex, alLookup_alSet_self, Option.orElse]
      | some l => simp [sectionPatchStep, hex, alLookup_alSet_self, Option.orElse]
    | some d =>
      cases pdl with
      | none =>
        simp [sectionPatchStep, hex, alLookup_alModify_self, alLookup_alSet_self,
          Option.orElse]
      | some l => simp [sectionPatchStep, hex, alLookup_alSet_self, Option.orElse]

theorem inlineMergeStep_lookup (ap : PatchMap) (v : String) (pd : PatchData) :
    alLookup (inlineMergeStep ap (v, pd)) v =
      some (match alLookup ap v with
            | none => pd
            | some ex => ⟨ex.description, ex.detailLink.orElse (fun _ => pd.detailLink)⟩) := by
  cases hex : alLookup ap v with
  | none => simp [inlineMergeStep, hex, alLookup_alSet_self]
  | some ex =>
    obtain ⟨exd, exl⟩ := ex
    cases exl with
    | some l => simp [inlineMergeStep, hex, Option.orElse]
    | none =>
      cases hpl : pd.detailLink with
      | none => simp [inlineMergeStep, hex, hpl, Option.orElse]
      | some l2 => simp [inlineMergeStep, hex, hpl, alLookup_alSet_self, Option.orElse]

theorem lineOverwriteStep_lookup (ap : PatchMap) (v : String) (d : String) :
    alLookup (lineOverwriteStep ap v d) v =
      some (match alLookup ap v with
            | none => ⟨d, none⟩
            | some ex =>
              if ex.description.length < d.length then ⟨d, ex.detailLink⟩ else ex) := by
  cases hex : alLookup ap v with
  | none => simp [lineOverwriteStep, hex, alLookup_alSet_self]
  | some ex =>
    by_cases hlen : ex.description.length < d.length
    · simp [lineOverwriteStep, hex, hlen, alLookup_alSet_self]
    · simp [lineOverwriteStep, hex, hlen]

theorem patchesMergeStep_lookup (ap : PatchMap) (v : String) (pd : PatchData) :
    alLookup (patchesMergeStep ap (v, pd)) v =
      some (match alLookup ap v with
            | none => pd
            | some ex =>
              if ex.description.length < pd.description.length then
                ⟨pd.description, ex.detailLink.orElse (fun _ => pd.detailLink)⟩
              else ex) := by
  obtain ⟨pdd, pdl⟩ := pd
  cases hex : alLookup ap v with
  | none => simp [patchesMergeStep, hex, alLookup_alSet_self]
  | some ex =>
    by_cases hlen : ex.description.length < pdd.length
    · simp [patchesMergeStep, hex, hlen, alLookup_alSet_self]
    · simp [patchesMergeStep, hex, hlen]

/-! ## Comparator and stability lemmas -/

theorem cmpInts_self (x : List Int) : cmpInts x x = 0 := by
  induction x with
  | nil => rfl
  | cons a as_ ih => simp [cmpInts, ih]

theorem orderedInsert_filter_pos {α : Type} (r : α → α → Prop) [DecidableRel r]
    (p : α → Bool) (a : α) (ha : p a = true) :
    ∀ l : List α, (∀ b ∈ l, p b = true → r a b) →
      (List.orderedInsert r a l).filter p = a :: l.filter p := by
  intro l
  induction l with
  | nil => intro _; simp [List.orderedInsert, ha]
  | cons b l ih =>
    intro hties
    by_cases hr : r a b
    · simp [List.orderedInsert, hr, List.filter, ha]
    · have hb : p b = false := by
        cases hpb : p b with
        | false => rfl
        | true => exact absurd (hties b (by simp) hpb) hr
      simp only [List.orderedInsert, if_neg hr, List.filter, hb]
      exact ih (fun c hc hpc => hties c (by simp [hc]) hpc)

theorem orderedInsert_filter_neg {α : Type} (r : α → α → Prop) [DecidableRel r]
    (p : α → Bool) (a : α) (ha : p a = false) :
    ∀ l : List α, (List.orderedInsert r a l).filter p = l.filter p := by
  intro l
  induction l with
  | nil => simp [List.orderedInsert, ha]
  | cons b l ih =>
    by_cases hr : r a b
    · simp [List.orderedInsert, hr, List.filter, ha]
    · cases hb : p b with
      | false => simp only [List.orderedInsert, if_neg hr, List.filter, hb, ih]
      | true => simp only [List.orderedInsert, if_neg hr, List.filter, hb, ih]

/-- Stability of the modelled JS sort: within one comparison class the
original relative order survives. -/
theorem jsSortBy_filter_ties {α : Type} (key : α → List Int) (l : List α) (t : List Int) :
    (jsSortBy (fun a b => cmpInts (key b) (key a)) l).filter
        (fun e => decide (key e = t)) =
      l.filter (fun e => decide (key e = t)) := by
  induction l with
  | nil => rfl
  | cons a l ih =>
    show (List.orderedInsert _ a (List.insertionSort _ l)).filter _ = _
    by_cases ha : key a = t
    · rw [orderedInsert_filter_pos _ _ a (by simp [ha]) _ ?ties]
      · simp only [List.filter, decide_eq_true_eq, ha, if_pos rfl]
        exact congrArg (a :: ·) ih
      case ties =>
        intro b _ hpb
        have hb : key b = t := of_decide_eq_true hpb
        simp [hb, ha, cmpInts_self]
    · rw [orderedInsert_filter_neg _ _ a (by simp [ha])]
      simp only [List.filter, decide_eq_false_iff_not.mpr ha]
      simpa [ha] using ih

/-! ## `getLatestVersion` helper -/

theorem findFirstNonX_eq_find? (l : List ChangelogEntry) :
    findFirstNonX l = l.find? (fun e => !containsChar e.version.data 'x') := by
  induction l with
  | nil => rfl
  | cons e rest ih =>
    cases h : containsChar e.version.data 'x' with
    | false => simp [findFirstNonX, List.find?, h]
    | true => simp [findFirstNonX, List.find?, h, ih]

/-! ## Fold invariants of the extraction pipeline -/

theorem foldl_preserve {α β : Type} (P : β → Prop) (f : β → α → β) :
    ∀ (l : List α) (b : β), P b → (∀ b' a, a ∈ l → P b' → P (f b' a)) →
      P (l.foldl f b) := by
  intro l
  induction l with
  | nil => intro b hb _; exact hb
  | cons a l ih =>
    intro b hb hf
    exact ih (f b a) (hf b a (by simp) hb)
      (fun b' x hx hb' => hf b' x (by simp [hx]) hb')

theorem alLookup_mem {β : Type} {m : AList β} {k : String} {v : β}
    (h : alLookup m k = some v) : (k, v) ∈ m := by
  induction m with
  | nil => cases h
  | cons p rest ih =>
    obtain ⟨k0, v0⟩ := p
    by_cases h0 : k0 = k
    · subst h0
      simp [alLookup] at h
      simp [h]
    · simp [alLookup, h0] at h
      simp [ih h]

theorem kdInv_alSet {K : String → Prop} {ap : PatchMap} {k : String} {v : PatchData}
    (hap : ∀ p ∈ ap, kdInv K p) (hk : K k) (hd : v.description ≠ "")
    (hl : 10 < v.description.length) : ∀ p ∈ alSet ap k v, kdInv K p := by
  intro p hp
  rcases mem_alSet hp with h | h
  · exact hap p h
  · subst h; exact ⟨hk, hd, hl⟩

theorem kdInv_alModifyLink {K : String → Prop} {ap : PatchMap} {k : String}
    {dl : Option String} (hap : ∀ p ∈ ap, kdInv K p) :
    ∀ p ∈ alModify ap k (fun pd => { pd with detailLink := dl }), kdInv K p := by
  intro p hp
  rcases mem_alModify hp with ⟨q, hq, hfst, hsnd⟩
  have hk := (hap q hq).1
  have hdq := (hap q hq).2
  rcases hsnd with h | h
  · exact ⟨hfst ▸ hk, h ▸ hdq⟩
  · refine ⟨hfst ▸ hk, ?_, ?_⟩
    · simpa [h] using hdq.1
    · simpa [h] using hdq.2

theorem sectionPatchStep_inv {K : String → Prop} {dl : Option String} {ap : PatchMap}
    {entry : String × PatchData} (hap : ∀ p ∈ ap, kdInv K p) (hentry : kdInv K entry) :
    ∀ p ∈ sectionPatchStep dl ap entry, kdInv K p := by
  unfold sectionPatchStep
  intro p hp
  split at hp
  · split at hp
    · exact (kdInv_alModifyLink (kdInv_alSet hap hentry.1 hentry.2.1 hentry.2.2)) p hp
    · exact (kdInv_alSet hap hentry.1 hentry.2.1 hentry.2.2) p hp
  · exact hap p hp

theorem inlineMergeStep_inv {K : String → Prop} {ap : PatchMap}
    {entry : String × PatchData} (hap : ∀ p ∈ ap, kdInv K p) (hentry : kdInv K entry) :
    ∀ p ∈ inlineMergeStep ap entry, kdInv K p := by
  unfold inlineMergeStep
  intro p hp
  split at hp
  · exact (kdInv_alSet hap hentry.1 hentry.2.1 hentry.2.2) p hp
  · rename_i existing hex
    split at hp
    · rename_i hexl hdl
      have hmem := alLookup_mem hex
      have hkd := hap _ hmem
      refine kdInv_alSet hap hkd.1 ?_ ?_ p hp
      · exact hkd.2.1
      · exact hkd.2.2
    · exact hap p hp

theorem lineOverwriteStep_inv {K : String → Prop} {ap : PatchMap} {v : String}
    {d : String} (hap : ∀ p ∈ ap, kdInv K p) (hKv : K v) (hd : d ≠ "")
    (hl : 10 < d.length) : ∀ p ∈ lineOverwriteStep ap v d, kdInv K p := by
  unfold lineOverwriteStep
  intro p hp
  split at hp
  · exact (kdInv_alSet hap hKv hd hl) p hp
  · split at hp
    · exact (kdInv_alSet hap hKv hd hl) p hp
    · exact hap p hp

theorem patchesMergeStep_inv {K : String → Prop} {ap : PatchMap}
    {entry : String × PatchData} (hap : ∀ p ∈ ap, kdInv K p) (hentry : kdInv K entry) :
    ∀ p ∈ patchesMergeStep ap entry, kdInv K p := by
  unfold patchesMergeStep
  intro p hp
  split at hp
  · refine kdInv_alSet hap hentry.1 ?_ ?_ p hp
    · exact hentry.2.1
    · exact hentry.2.2
  · split at hp
    · refine kdInv_alSet hap hentry.1 ?_ ?_ p hp
      · exact hentry.2.1
      · exact hentry.2.2
    · exact hap p hp

/-- Every entry stored by `extractIndividualPatches` has a version
starting `0.`, a cleaned non-empty description strictly longer than 10
characters, and no detail link. -/
theorem extractIndividualPatches_entries (content : String) :
    ∀ p ∈ extractIndividualPatches content,
      leadsWith ['0', '.'] p.fst.data = true ∧ p.snd.description ≠ "" ∧
      10 < p.snd.description.length ∧ p.snd.detailLink = none := by
  unfold extractIndividualPatches
  refine foldl_preserve (fun m : PatchMap => ∀ p ∈ m,
    leadsWith ['0', '.'] p.fst.data = true ∧ p.snd.description ≠ "" ∧
    10 < p.snd.description.length ∧ p.snd.detailLink = none) _ _ _ ?_ ?_
  · intro p hp; cases hp
  · intro patches m _ hPatches p hp
    simp only [] at hp
    split at hp
    · rename_i verL descL h1 h2
      generalize hq : cleanDescription (String.mk descL) = q at hp
      split at hp
      · split at hp
        · rename_i hlead hguard
          rcases mem_alSet hp with h | h
          · exact hPatches p h
          · subst h
            exact ⟨hlead, hguard.1, hguard.2, rfl⟩
        · exact hPatches p hp
      · exact hPatches p hp
    · exact hPatches p hp

theorem extractPhase1_inv (text : String) :
    ∀ p ∈ extractPhase1 text,
      kdInv (fun k => leadsWith ['0', '.'] k.data = true ∨ k ∈ sectionLabels text) p := by
  set K := fun k : String =>
    leadsWith ['0', '.'] k.data = true ∨ k ∈ sectionLabels text with hK
  unfold extractPhase1
  apply foldl_preserve (fun m => ∀ p ∈ m, kdInv K p)
  · intro p hp; cases hp
  · intro ap sec hsec hap
    split
    · exact hap
    · rename_i vm hvm
      split
      · exact hap
      · rename_i verL hverL
        have hlabel : String.mk verL ∈ sectionLabels text := by
          unfold sectionLabels
          exact List.mem_filterMap.mpr ⟨sec, hsec, by simp [hvm, hverL]⟩
        have hap1 : ∀ p ∈ (match matchFirst patSectionDesc sec with
            | some dm =>
              match getCap dm.caps 1 with
              | some (c :: cs) =>
                let desc := cleanDescription (String.mk (c :: cs))
                if desc ≠ "" ∧ 10 < desc.length then
                  alSet ap (String.mk verL)
                    { description := desc, detailLink := extractDetailLink sec }
                else ap
              | _ => ap
            | none => ap), kdInv K p := by
          split
          · split
            · rename_i c cs heq
              intro p hp
              simp only [] at hp
              generalize hq : cleanDescription (String.mk (c :: cs)) = q at hp
              split at hp
              · rename_i hguard
                exact kdInv_alSet hap (Or.inr hlabel) hguard.1 hguard.2 p hp
              · exact hap p hp
            · exact hap
          · exact hap
        refine foldl_preserve (fun m => ∀ p ∈ m, kdInv K p) _ _ _ ?_ ?_
        · exact hap1
        · intro ap' entry hentry hap'
          have he := extractIndividualPatches_entries (String.mk sec) entry hentry
          exact sectionPatchStep_inv hap' ⟨Or.inl he.1, he.2.1, he.2.2.1⟩

theorem extractPhase2_inv {K : String → Prop} (text : String) (m : PatchMap)
    (hm : ∀ p ∈ m, kdInv K p)
    (hstr : ∀ k : String, leadsWith ['0', '.'] k.data = true → K k) :
    ∀ p ∈ extractPhase2 text m, kdInv K p := by
  unfold extractPhase2
  apply foldl_preserve (fun m => ∀ p ∈ m, kdInv K p)
  · exact hm
  · intro ap entry hentry hap
    have he := extractIndividualPatches_entries text entry hentry
    exact inlineMergeStep_inv hap ⟨hstr _ he.1, he.2.1, he.2.2.1⟩

theorem extractPhase3_inv {K : String → Prop} (text : String) (m : PatchMap)
    (hm : ∀ p ∈ m, kdInv K p)
    (hstr : ∀ k : String, leadsWith ['0', '.'] k.data = true → K k) :
    ∀ p ∈ extractPhase3 text m, kdInv K p := by
  unfold extractPhase3
  apply foldl_preserve (fun m => ∀ p ∈ m, kdInv K p)
  · exact hm
  · intro ap mr _ hap p hp
    simp only [] at hp
    split at hp
    · rename_i verL descL h1 h2
      generalize hq : cleanDescription (String.mk descL) = q at hp
      split at hp
      · split at hp
        · rename_i hlead hguard
          exact lineOverwriteStep_inv hap (hstr _ (by simpa using hlead))
            hguard.1 hguard.2 p hp
        · exact hap p hp
      · exact hap p hp
    · exact hap p hp

theorem extractPhase4_inv {K : String → Prop} (text : String) (m : PatchMap)
    (hm : ∀ p ∈ m, kdInv K p)
    (hstr : ∀ k : String, leadsWith ['0', '.'] k.data = true → K k) :
    ∀ p ∈ extractPhase4 text m, kdInv K p := by
  unfold extractPhase4
  apply foldl_preserve (fun m => ∀ p ∈ m, kdInv K p)
  · exact hm
  · intro ap mr _ hap
    split
    · exact hap
    · rename_i secL hsecL
      apply foldl_preserve (fun m => ∀ p ∈ m, kdInv K p)
      · exact hap
      · intro ap' entry hentry hap'
        have he := extractIndividualPatches_entries (String.mk (trimChars secL)) entry hentry
        exact patchesMergeStep_inv hap' ⟨hstr _ he.1, he.2.1, he.2.2.1⟩

/-- Master invariant of `extractAllPatches`: every stored entry either
has a version starting `0.` or is one of the section labels of the
text, and carries a meaningful description. -/
theorem extractAllPatches_entries (text : String) :
    ∀ p ∈ extractAllPatches text,
      (leadsWith ['0', '.'] p.fst.data = true ∨ p.fst ∈ sectionLabels text) ∧
      p.snd.description ≠ "" ∧ 10 < p.snd.description.length := by
  intro p hp
  rw [extractAllPatches, List.mem_filter] at hp
  exact extractPhase4_inv text _
    (extractPhase3_inv text _
      (extractPhase2_inv text _ (extractPhase1_inv text) (fun k hk => Or.inl hk))
      (fun k hk => Or.inl hk))
    (fun k hk => Or.inl hk) p hp.1

/-! ## Provenance of consolidated records -/

theorem mem_jsSortBy {α : Type} {cmp : α → α → Int} {l : List α} {a : α} :
    a ∈ jsSortBy cmp l ↔ a ∈ l :=
  List.mem_insertionSort _

theorem groupStep_prov {m : PatchMap} {acc : AList GroupData}
    {entry : String × PatchData} (hentry : entry ∈ m)
    (hacc : ∀ g ∈ acc, groupProv m g) :
    ∀ g ∈ groupStep acc entry, groupProv m g := by
  have hkey : entry.fst ∈ m.map Prod.fst :=
    List.mem_map.mpr ⟨entry, hentry, rfl⟩
  have h1 : ∀ g ∈ (match alLookup acc entry.snd.description with
      | none => acc ++ [(entry.snd.description, (⟨[], entry.snd.detailLink⟩ : GroupData))]
      | some _ => acc), groupProv m g := by
    split
    · intro g hg
      rcases List.mem_append.mp hg with h | h
      · exact hacc g h
      · simp only [List.mem_singleton] at h
        subst h
        refine ⟨⟨entry, hentry, rfl⟩, ?_⟩
        intro v hv
        cases hv
    · exact hacc
  have h2 : ∀ g ∈ alModify (match alLookup acc entry.snd.description with
      | none => acc ++ [(entry.snd.description, (⟨[], entry.snd.detailLink⟩ : GroupData))]
      | some _ => acc) entry.snd.description
        (fun gd => { gd with versions := gd.versions ++ [entry.fst] }),
      groupProv m g := by
    intro g hg
    rcases mem_alModify hg with ⟨q, hq, hfst, hsnd⟩
    have hqp := h1 q hq
    refine ⟨hfst ▸ hqp.1, ?_⟩
    rcases hsnd with h | h
    · exact fun v hv => hqp.2 v (h ▸ hv)
    · intro v hv
      rw [h] at hv
      simp only [List.mem_append, List.mem_singleton] at hv
      rcases hv with hv | hv
      · exact hqp.2 v hv
      · exact hv ▸ hkey
  unfold groupStep
  simp only []
  split
  · rename_i gd hgd
    split
    · intro g hg
      rcases mem_alModify hg with ⟨q, hq, hfst, hsnd⟩
      have hqp := h2 q hq
      refine ⟨hfst ▸ hqp.1, ?_⟩
      rcases hsnd with h | h
      · exact fun v hv => hqp.2 v (h ▸ hv)
      · intro v hv
        rw [h] at hv
        exact hqp.2 v hv
    · exact h2
  · exact h2

theorem grouped_prov (m : PatchMap) :
    ∀ g ∈ m.foldl groupStep [], groupProv m g := by
  refine foldl_preserve (fun acc => ∀ g ∈ acc, groupProv m g) _ _ _ ?_ ?_
  · intro g hg; cases hg
  · intro acc entry hentry hacc
    exact groupStep_prov hentry hacc

theorem buildRunsGo_mem :
    ∀ (rest : List String) (prev : String) (current run : List String),
      run ∈ buildRunsGo prev current rest → ∀ v ∈ run, v ∈ current ∨ v ∈ rest := by
  intro rest
  induction rest with
  | nil =>
    intro prev current run hrun v hv
    simp only [buildRunsGo, List.mem_singleton] at hrun
    subst hrun
    exact Or.inl hv
  | cons w rest ih =>
    intro prev current run hrun v hv
    unfold buildRunsGo at hrun
    split at hrun
    · rcases ih _ _ _ hrun v hv with h | h
      · rcases List.mem_append.mp h with h1 | h1
        · exact Or.inl h1
        · simp only [List.mem_singleton] at h1
          subst h1
          exact Or.inr (by simp)
      · exact Or.inr (by simp [h])
    · rcases List.mem_cons.mp hrun with h | h
      · subst h
        exact Or.inl hv
      · rcases ih _ _ _ h v hv with h1 | h1
        · simp only [List.mem_singleton] at h1
          subst h1
          exact Or.inr (by simp)
        · exact Or.inr (by simp [h1])

theorem buildRuns_mem {l run : List String} (hrun : run ∈ buildRuns l) :
    ∀ v ∈ run, v ∈ l := by
  intro v hv
  cases l with
  | nil => cases hrun
  | cons w rest =>
    rcases buildRunsGo_mem rest w [w] run hrun v hv with h | h
    · simp only [List.mem_singleton] at h
      subst h
      simp
    · simp [h]

/-- Provenance of consolidated records: every emitted record's
description is the description of some entry of the input map, and its
version is either a map key passing the `0.` filter or the hyphen join
of two such keys. -/
theorem consolidate_provenance (m : PatchMap) :
    ∀ e ∈ consolidateVersions m, recProv m e := by
  intro e he
  unfold consolidateVersions at he
  simp only [] at he
  rw [orderChangelog, jsSortBy, List.mem_insertionSort] at he
  refine foldl_preserve (fun acc => ∀ e ∈ acc, recProv m e) _ _ _ ?_ ?_ e he
  · intro e' he'; cases he'
  · intro acc g hg hacc
    have hgp := grouped_prov m g hg
    split
    · exact hacc
    · split
      · exact hacc
      · rename_i v0 vrest hne
        -- the sorted, filtered version list of this group
        refine foldl_preserve (fun acc2 => ∀ e' ∈ acc2, recProv m e') _ _ _ ?_ ?_
        · exact hacc
        · intro acc2 rangeGroup hrange hacc2 e' he'
          have hrunmem : ∀ v ∈ rangeGroup,
              v ∈ g.snd.versions.filter (fun v => leadsWith ['0', '.'] v.data) := by
            intro v hv
            have h1 := buildRuns_mem hrange v hv
            rw [mem_jsSortBy] at h1
            exact hne ▸ h1
          have hinfo : ∀ v, v ∈ rangeGroup →
              v ∈ m.map Prod.fst ∧ leadsWith ['0', '.'] v.data = true := by
            intro v hv
            have h1 := hrunmem v hv
            rw [List.mem_filter] at h1
            exact ⟨hgp.2 v h1.1, h1.2⟩
          split at he'
          · rcases List.mem_append.mp he' with h | h
            · exact hacc2 e' h
            · simp only [List.mem_singleton] at h
              subst h
              rename_i v
              refine ⟨⟨hgp.1.choose, hgp.1.choose_spec.1, hgp.1.choose_spec.2⟩, ?_⟩
              have := hinfo v (by simp)
              exact Or.inl ⟨v, this.1, this.2, rfl⟩
          · split at he'
            · rcases List.mem_append.mp he' with h | h
              · exact hacc2 e' h
              · simp only [List.mem_singleton] at h
                subst h
                rename_i first last hfirst hlast
                have hf := hinfo first (List.mem_of_mem_head? hfirst)
                have hl := hinfo last (List.mem_of_mem_getLast? hlast)
                refine ⟨⟨hgp.1.choose, hgp.1.choose_spec.1, hgp.1.choose_spec.2⟩, ?_⟩
                exact Or.inr ⟨first, last, hf.1, hl.1, hf.2, hl.2, rfl⟩
            · exact hacc2 e' he'

/-! ## Comparator order theory and sortedness -/

theorem cmpInts_nil_right : ∀ as_ : List Int, cmpInts as_ [] = cmpZerosR as_
  | [] => rfl
  | _ :: _ => rfl

theorem cmpInts_nil_left : ∀ bs : List Int, cmpInts [] bs = cmpZerosL bs
  | [] => rfl
  | _ :: _ => rfl

theorem cmpInts_head_eq (a b : List Int) :
    cmpInts a b =
      if a.headD 0 ≠ b.headD 0 then a.headD 0 - b.headD 0
      else cmpInts a.tail b.tail := by
  cases a with
  | nil =>
    cases b with
    | nil => simp [cmpInts, cmpZerosL]
    | cons y ys =>
      show cmpZerosL (y :: ys) = _
      rw [cmpZerosL]
      simp only [List.headD, List.tail, cmpInts_nil_left]
  | cons x xs =>
    cases b with
    | nil =>
      show cmpZerosR (x :: xs) = _
      rw [cmpZerosR]
      simp only [List.headD, List.tail, cmpInts_nil_right]
      split_ifs
      · omega
      · rfl
    | cons y ys =>
      show (if x ≠ y then x - y else cmpInts xs ys) = _
      simp only [List.headD, List.tail]

theorem cmpInts_swap : ∀ (n : Nat) (a b : List Int), a.length + b.length ≤ n →
    cmpInts a b = -(cmpInts b a) := by
  intro n
  induction n with
  | zero =>
    intro a b hlen
    have ha : a = [] := List.length_eq_zero.mp (by omega)
    have hb : b = [] := List.length_eq_zero.mp (by omega)
    subst ha; subst hb
    show (0 : Int) = -(0 : Int)
    omega
  | succ n ih =>
    intro a b hlen
    by_cases hall : a = [] ∧ b = []
    · rcases hall with ⟨ha, hb⟩
      subst ha; subst hb
      show (0 : Int) = -(0 : Int)
      omega
    · rw [cmpInts_head_eq a b, cmpInts_head_eq b a]
      have hlt : a.tail.length + b.tail.length ≤ n := by
        have h1 : a.tail.length = a.length - 1 := by cases a <;> simp
        have h2 : b.tail.length = b.length - 1 := by cases b <;> simp
        have h3 : a.length ≠ 0 ∨ b.length ≠ 0 := by
          by_contra hc
          push_neg at hc
          exact hall ⟨List.length_eq_zero.mp hc.1, List.length_eq_zero.mp hc.2⟩
        omega
      have hih := ih a.tail b.tail hlt
      by_cases hhd : a.headD 0 = b.headD 0
      · rw [if_neg (not_not_intro hhd), if_neg (not_not_intro hhd.symm), hih]
      · rw [if_pos hhd, if_pos (fun hc => hhd hc.symm)]
        omega

theorem cmpInts_trans : ∀ (n : Nat) (a b c : List Int),
    a.length + b.length + c.length ≤ n →
    cmpInts a b ≤ 0 → cmpInts b c ≤ 0 → cmpInts a c ≤ 0 := by
  intro n
  induction n with
  | zero =>
    intro a b c hlen _ _
    have ha : a = [] := List.length_eq_zero.mp (by omega)
    have hc : c = [] := List.length_eq_zero.mp (by omega)
    subst ha; subst hc
    show (0 : Int) ≤ 0
    omega
  | succ n ih =>
    intro a b c hlen h1 h2
    by_cases hall : a = [] ∧ b = [] ∧ c = []
    · rcases hall with ⟨ha, hb, hc⟩
      subst ha; subst hb; subst hc
      show (0 : Int) ≤ 0
      omega
    · rw [cmpInts_head_eq] at h1 h2 ⊢
      have hlt : a.tail.length + b.tail.length + c.tail.length ≤ n := by
        have h1l : a.tail.length = a.length - 1 := by cases a <;> simp
        have h2l : b.tail.length = b.length - 1 := by cases b <;> simp
        have h3l : c.tail.length = c.length - 1 := by cases c <;> simp
        have h4 : a.length ≠ 0 ∨ b.length ≠ 0 ∨ c.length ≠ 0 := by
          by_contra hcn
          push_neg at hcn
          exact hall ⟨List.length_eq_zero.mp hcn.1, List.length_eq_zero.mp hcn.2.1,
            List.length_eq_zero.mp hcn.2.2⟩
        omega
      by_cases hab : a.headD 0 = b.headD 0 <;> by_cases hbc : b.headD 0 = c.headD 0
      · rw [if_neg (not_not_intro hab)] at h1
        rw [if_neg (not_not_intro hbc)] at h2
        rw [if_neg (not_not_intro (hab.trans hbc))]
        exact ih a.tail b.tail c.tail hlt h1 h2
      · rw [if_pos hbc] at h2
        rw [if_pos (show a.headD 0 ≠ c.headD 0 by omega)]
        omega
      · rw [if_pos hab] at h1
        rw [if_pos (show a.headD 0 ≠ c.headD 0 by omega)]
        omega
      · rw [if_pos hab] at h1
        rw [if_pos hbc] at h2
        rw [if_pos (show a.headD 0 ≠ c.headD 0 by omega)]
        omega

theorem cmpInts3_eq_zero {a0 a1 a2 b0 b1 b2 : Int}
    (h : cmpInts [a0, a1, a2] [b0, b1, b2] = 0) : a0 = b0 ∧ a1 = b1 ∧ a2 = b2 := by
  rw [cmpInts_head_eq] at h
  simp only [List.headD, List.tail] at h
  rw [cmpInts_head_eq] at h
  simp only [List.headD, List.tail] at h
  rw [cmpInts_head_eq] at h
  simp only [List.headD, List.tail] at h
  split_ifs at h <;> omega

/-- Two sorted permutations of each other are equal when the order is
antisymmetric on their members. -/
theorem perm_sorted_eq {α : Type} (r : α → α → Prop) :
    ∀ (l₁ l₂ : List α), List.Perm l₁ l₂ → l₁.Sorted r → l₂.Sorted r →
      (∀ a ∈ l₁, ∀ b ∈ l₁, r a b → r b a → a = b) → l₁ = l₂ := by
  intro l₁
  induction l₁ with
  | nil =>
    intro l₂ hp _ _ _
    exact (List.Perm.eq_nil hp.symm).symm
  | cons a t₁ ih =>
    intro l₂ hp hs₁ hs₂ hanti
    cases l₂ with
    | nil =>
      have := hp.length_eq
      simp at this
    | cons b t₂ =>
      have hab : a = b := by
        by_contra hne
        have ha2 : a ∈ b :: t₂ := hp.mem_iff.mp (by simp)
        have hb1 : b ∈ a :: t₁ := hp.symm.mem_iff.mp (by simp)
        have ha2m : a ∈ t₂ := by
          rcases List.mem_cons.mp ha2 with h | h
          · exact absurd h hne
          · exact h
        have hb1m : b ∈ t₁ := by
          rcases List.mem_cons.mp hb1 with h | h
          · exact absurd h.symm hne
          · exact h
        have hrab : r a b := List.rel_of_sorted_cons hs₁ b hb1m
        have hrba : r b a := List.rel_of_sorted_cons hs₂ a ha2m
        exact hne (hanti a (by simp) b (by simp [hb1m]) hrab hrba)
      subst hab
      have hp2 : List.Perm t₁ t₂ := hp.cons_inv
      have ht := ih t₂ hp2 hs₁.of_cons hs₂.of_cons
        (fun x hx y hy hr1 hr2 => hanti x (by simp [hx]) y (by simp [hy]) hr1 hr2)
      rw [ht]

/-! ## Grouping and run lemmas for uniform-description maps -/

theorem groupStep_const_start (d : String) (link : Option String) (v : String) :
    groupStep [] (v, (⟨d, link⟩ : PatchData)) = [(d, ⟨[v], link⟩)] := by
  cases link <;> simp [groupStep, alLookup, alModify]

theorem groupStep_const_more (d : String) (link : Option String) (v : String)
    (vs0 : List String) :
    groupStep [(d, ⟨vs0, link⟩)] (v, (⟨d, link⟩ : PatchData)) =
      [(d, ⟨vs0 ++ [v], link⟩)] := by
  cases link <;> simp [groupStep, alLookup, alModify]

theorem groupStep_const_fold (d : String) (link : Option String) :
    ∀ (ps : List String) (vs0 : List String),
      (ps.map fun v => (v, (⟨d, link⟩ : PatchData))).foldl groupStep
          [(d, ⟨vs0, link⟩)] =
        [(d, ⟨vs0 ++ ps, link⟩)] := by
  intro ps
  induction ps with
  | nil => intro vs0; simp
  | cons v ps ih =>
    intro vs0
    simp only [List.map_cons, List.foldl_cons]
    rw [groupStep_const_more, ih, List.append_assoc]
    rfl

theorem grouped_const (d : String) (link : Option String) (v : String)
    (ps : List String) :
    ((v :: ps).map fun w => (w, (⟨d, link⟩ : PatchData))).foldl groupStep [] =
      [(d, ⟨v :: ps, link⟩)] := by
  simp only [List.map_cons, List.foldl_cons]
  rw [groupStep_const_start, groupStep_const_fold]
  rfl

theorem buildRunsGo_chain :
    ∀ (rest : List String) (prev : String) (current : List String),
      List.Chain (fun p c => consecCheck p c = true) prev rest →
      buildRunsGo prev current rest = [current ++ rest] := by
  intro rest
  induction rest with
  | nil => intro prev current _; simp [buildRunsGo]
  | cons w rest ih =>
    intro prev current hchain
    rcases List.chain_cons.mp hchain with ⟨hpw, hrest⟩
    unfold buildRunsGo
    rw [if_pos hpw, ih w (current ++ [w]) hrest]
    simp

theorem buildRuns_chain (v : String) (rest : List String)
    (hchain : List.Chain (fun p c => consecCheck p c = true) v rest) :
    buildRuns (v :: rest) = [v :: rest] := by
  show buildRunsGo v [v] rest = _
  rw [buildRunsGo_chain rest v [v] hchain]
  simp

theorem cmp3_le {M x y : Int} (hxy : x ≤ y) : cmpInts [0, M, x] [0, M, y] ≤ 0 := by
  rw [cmpInts_head_eq]
  simp only [List.headD, List.tail, ne_eq, not_true_eq_false, if_false, if_neg
    (not_not_intro rfl)]
  rw [cmpInts_head_eq]
  simp only [List.headD, List.tail, if_neg (not_not_intro rfl)]
  rw [cmpInts_head_eq]
  simp only [List.headD, List.tail]
  by_cases hxy2 : x = y
  · rw [if_neg (not_not_intro hxy2)]
    show (0 : Int) ≤ 0
    omega
  · rw [if_pos hxy2]
    omega

theorem consec_of_parts {p c : String} {M K : Int}
    (hp : versionParts p = [0, M, K]) (hc : versionParts c = [0, M, K + 1]) :
    consecCheck p c = true := by
  unfold consecCheck
  rw [hp, hc]
  simp

theorem sorted_const_run (M K : Int) (vs ps : List String)
    (hparts : ∀ i : Fin vs.length,
      versionParts (vs.get i) = [0, M, K + ((i : Nat) : Int)])
    (hperm : List.Perm ps vs) :
    jsSortBy (fun a b => cmpInts (versionParts a) (versionParts b)) ps = vs := by
  haveI htot : IsTotal String
      (fun a b => cmpInts (versionParts a) (versionParts b) ≤ 0) := by
    refine ⟨fun a b => ?_⟩
    have hs := cmpInts_swap ((versionParts a).length + (versionParts b).length)
      (versionParts a) (versionParts b) le_rfl
    omega
  haveI htrans : IsTrans String
      (fun a b => cmpInts (versionParts a) (versionParts b) ≤ 0) := by
    refine ⟨fun a b c h1 h2 => ?_⟩
    exact cmpInts_trans
      ((versionParts a).length + (versionParts b).length + (versionParts c).length)
      _ _ _ le_rfl h1 h2
  show List.insertionSort _ ps = vs
  refine perm_sorted_eq (fun a b => cmpInts (versionParts a) (versionParts b) ≤ 0)
    _ vs ((List.perm_insertionSort _ ps).trans hperm)
    (List.sorted_insertionSort _ ps) ?_ ?_
  · refine List.pairwise_iff_get.mpr ?_
    intro i j hij
    show cmpInts _ _ ≤ 0
    rw [hparts i, hparts j]
    refine cmp3_le ?_
    have hij2 : (i : Nat) < (j : Nat) := hij
    omega
  · intro a ha b hb hr1 hr2
    have ha2 : a ∈ vs := hperm.mem_iff.mp ((List.mem_insertionSort _).mp ha)
    have hb2 : b ∈ vs := hperm.mem_iff.mp ((List.mem_insertionSort _).mp hb)
    rcases List.mem_iff_get.mp ha2 with ⟨i, rfl⟩
    rcases List.mem_iff_get.mp hb2 with ⟨j, rfl⟩
    rw [hparts i, hparts j] at hr1 hr2
    have hz : cmpInts [0, M, K + ((i : Nat) : Int)] [0, M, K + ((j : Nat) : Int)] = 0 := by
      have hs := cmpInts_swap
        (([0, M, K + ((i : Nat) : Int)] : List Int).length +
          ([0, M, K + ((j : Nat) : Int)] : List Int).length)
        [0, M, K + ((i : Nat) : Int)] [0, M, K + ((j : Nat) : Int)] le_rfl
      omega
    obtain ⟨-, -, h3⟩ := cmpInts3_eq_zero hz
    have hij : (i : Nat) = (j : Nat) := by omega
    exact congrArg vs.get (Fin.ext hij)

theorem chain_const_run (M : Int) :
    ∀ (tl : List String) (v0 : String) (K : Int),
      (∀ i : Fin (v0 :: tl).length,
        versionParts ((v0 :: tl).get i) = [0, M, K + ((i : Nat) : Int)]) →
      List.Chain (fun p c => consecCheck p c = true) v0 tl := by
  intro tl
  induction tl with
  | nil => intro v0 K _; exact List.Chain.nil
  | cons v1 rest ih =>
    intro v0 K hparts
    refine List.Chain.cons ?_ ?_
    · have h0 := hparts ⟨0, by simp⟩
      have h1 := hparts ⟨1, by simp⟩
      have h1x : versionParts v1 = [0, M, K + ((0 : Nat) : Int) + 1] := by
        rw [show versionParts v1 = versionParts ((v0 :: v1 :: rest).get ⟨1, by simp⟩) from rfl,
          h1]
        norm_num
      exact consec_of_parts h0 h1x
    · refine ih v1 (K + 1) ?_
      intro i
      have h := hparts ⟨(i : Nat) + 1, Nat.succ_lt_succ i.isLt⟩
      have h2 : versionParts ((v1 :: rest).get i) =
          [0, M, K + (((i : Nat) + 1 : Nat) : Int)] := h
      rw [h2]
      simp only [List.cons.injEq, and_true, true_and]
      push_cast
      ring

theorem consolidate_const_run (d : String) (link : Option String) (M K : Int)
    (vs ps : List String)
    (hN : 2 ≤ vs.length) (hd : 10 ≤ d.length)
    (hparts : ∀ i : Fin vs.length,
      versionParts (vs.get i) = [0, M, K + ((i : Nat) : Int)])
    (hlead : ∀ v ∈ vs, leadsWith ['0', '.'] v.data = true)
    (hperm : List.Perm ps vs) :
    consolidateVersions (ps.map fun v => (v, (⟨d, link⟩ : PatchData))) =
      [⟨vs.headD "" ++ "-" ++ vs.getLastD "", d, link⟩] := by
  have hguard : ¬(d = "" ∨ d.length < 10) := by
    rintro (rfl | hlt)
    · exact absurd hd (by decide)
    · omega
  obtain ⟨p0, ps', rfl⟩ : ∃ p0 ps', ps = p0 :: ps' := by
    cases ps with
    | nil =>
      have hl := hperm.length_eq
      simp at hl
      omega
    | cons a l => exact ⟨a, l, rfl⟩
  have hfilter : (p0 :: ps').filter (fun v => leadsWith ['0', '.'] v.data) = p0 :: ps' :=
    List.filter_eq_self.mpr (fun a ha => hlead a (hperm.mem_iff.mp ha))
  have hsort : jsSortBy (fun a b => cmpInts (versionParts a) (versionParts b))
      (p0 :: ps') = vs :=
    sorted_const_run M K vs (p0 :: ps') hparts hperm
  obtain ⟨v0, tl, rfl⟩ : ∃ v0 tl, vs = v0 :: tl := by
    cases vs with
    | nil => simp at hN
    | cons a l => exact ⟨a, l, rfl⟩
  have hruns : buildRuns (v0 :: tl) = [v0 :: tl] :=
    buildRuns_chain v0 tl (chain_const_run M tl v0 K hparts)
  obtain ⟨v1, tl', rfl⟩ : ∃ v1 tl', tl = v1 :: tl' := by
    cases tl with
    | nil => simp at hN
    | cons a l => exact ⟨a, l, rfl⟩
  obtain ⟨last, hlast⟩ : ∃ last, (v0 :: v1 :: tl').getLast? = some last := by
    cases hgl : (v0 :: v1 :: tl').getLast? with
    | none => exact absurd (List.getLast?_eq_none_iff.mp hgl) (by simp)
    | some w => exact ⟨w, rfl⟩
  unfold consolidateVersions
  rw [grouped_const]
  simp only [List.foldl_cons, List.foldl_nil]
  rw [if_neg hguard, hfilter]
  simp only []
  rw [hsort, hruns]
  simp only [List.foldl_cons, List.foldl_nil, List.head?]
  rw [hlast]
  simp only [List.nil_append, List.headD]
  rw [List.getLastD_eq_getLast?, hlast]
  simp only [Option.getD]
  rfl

theorem consolidate_const_single (d : String) (link : Option String) (v : String)
    (hd : 10 ≤ d.length)
    (hlead : leadsWith ['0', '.'] v.data = true) :
    consolidateVersions [(v, (⟨d, link⟩ : PatchData))] = [⟨v, d, link⟩] := by
  have hguard : ¬(d = "" ∨ d.length < 10) := by
    rintro (rfl | hlt)
    · exact absurd hd (by decide)
    · omega
  have hmap : [(v, (⟨d, link⟩ : PatchData))] =
      [v].map (fun w => (w, (⟨d, link⟩ : PatchData))) := rfl
  rw [hmap]
  unfold consolidateVersions
  rw [grouped_const]
  simp only [List.foldl_cons, List.foldl_nil]
  rw [if_neg hguard]
  have hfilter : [v].filter (fun w => leadsWith ['0', '.'] w.data) = [v] := by
    simp [hlead]
  rw [hfilter]
  simp only []
  rfl

/-! ## Snapshot round-trip lemmas -/

theorem escList_cons (c : Char) (l : List Char) :
    escList (c :: l) = escapeChar c ++ escList l := rfl

theorem escapeChar_length_pos (c : Char) : 1 ≤ (escapeChar c).length := by
  unfold escapeChar
  split_ifs <;> simp

theorem escList_length (l : List Char) : l.length ≤ (escList l).length := by
  induction l with
  | nil => simp [escList]
  | cons c l ih =>
    rw [escList_cons]
    have := escapeChar_length_pos c
    simp only [List.length_append, List.length_cons]
    omega

theorem parseStringBody_step (c : Char) (fuel : Nat) (tail : List Char) :
    parseStringBody (fuel + 1) (escapeChar c ++ tail) =
      match parseStringBody fuel tail with
      | some (s, r) => some (c :: s, r)
      | none => none := by
  by_cases h1 : c = '"'
  · subst h1; rfl
  by_cases h2 : c = '\\'
  · subst h2; rfl
  by_cases h3 : c = '\x08'
  · subst h3; rfl
  by_cases h4 : c = '\x09'
  · subst h4; rfl
  by_cases h5 : c = '\x0a'
  · subst h5; rfl
  by_cases h6 : c = '\x0c'
  · subst h6; rfl
  by_cases h7 : c = '\x0d'
  · subst h7; rfl
  by_cases h8 : c.toNat < 32
  · obtain ⟨t, ht, rfl⟩ : ∃ t, t < 32 ∧ c = Char.ofNat t :=
      ⟨c.toNat, h8, (Char.ofNat_toNat c).symm⟩
    interval_cases t <;> rfl
  · have hesc : escapeChar c = [c] := by
      unfold escapeChar
      rw [if_neg h1, if_neg h2, if_neg h3, if_neg h4, if_neg h5, if_neg h6, if_neg h7,
        if_neg h8]
    rw [hesc, List.singleton_append]
    have hbody : parseStringBody (fuel + 1) (c :: tail) =
        if c = '"' then some ([], tail)
        else
          match (if c = '\\' then
              (match tail with
               | [] => none
               | e :: cs2 =>
                 if e = '"' then some ('"', cs2)
                 else if e = '\\' then some ('\\', cs2)
                 else if e = '/' then some ('/', cs2)
                 else if e = 'b' then some ('\x08', cs2)
                 else if e = 'f' then some ('\x0c', cs2)
                 else if e = 'n' then some ('\x0a', cs2)
                 else if e = 'r' then some ('\x0d', cs2)
                 else if e = 't' then some ('\x09', cs2)
                 else if e = 'u' then
                   match cs2 with
                   | h1 :: h2 :: h3 :: h4 :: cs3 =>
                     match hexVal h1, hexVal h2, hexVal h3, hexVal h4 with
                     | some a, some b, some c3, some d =>
                       let n := ((a * 16 + b) * 16 + c3) * 16 + d
                       if n < 55296 ∨ 57343 < n then some (Char.ofNat n, cs3) else none
                     | _, _, _, _ => none
                   | _ => none
                 else none)
            else if c.toNat < 32 then none
            else some (c, tail) : Option (Char × List Char)) with
          | none => none
          | some (ch, rest) =>
            match parseStringBody fuel rest with
            | some (s, r) => some (ch :: s, r)
            | none => none := rfl
    rw [hbody, if_neg h1, if_neg h2, if_neg h8]

theorem parseStringBody_escList :
    ∀ (l : List Char) (fuel : Nat) (tail : List Char), l.length < fuel →
      parseStringBody fuel (escList l ++ '"' :: tail) = some (l, tail) := by
  intro l
  induction l with
  | nil =>
    intro fuel tail h
    cases fuel with
    | zero => omega
    | succ f => rfl
  | cons c l ih =>
    intro fuel tail h
    cases fuel with
    | zero => simp at h
    | succ f =>
      have hre : escList (c :: l) ++ '"' :: tail =
          escapeChar c ++ (escList l ++ '"' :: tail) := by
        rw [escList_cons, List.append_assoc]
      rw [hre, parseStringBody_step, ih f tail (by simp at h; omega)]

theorem parseValue_strval (s : String) (fuel : Nat) (tail : List Char)
    (h : 1 ≤ fuel) :
    parseValue fuel (' ' :: '"' :: (escList s.data ++ ('"' :: tail))) =
      some (.jstr s, tail) := by
  obtain ⟨k, rfl⟩ : ∃ k, fuel = k + 1 := ⟨fuel - 1, by omega⟩
  have hstep : parseValue (k + 1) (' ' :: '"' :: (escList s.data ++ ('"' :: tail))) =
      match parseStringBody ((escList s.data ++ ('"' :: tail)).length + 1)
          (escList s.data ++ ('"' :: tail)) with
      | some (sb, rest) => some (Json.jstr (String.mk sb), rest)
      | none => none := rfl
  rw [hstep, parseStringBody_escList s.data ((escList s.data ++ ('"' :: tail)).length + 1)
    tail (by have h2 := escList_length s.data
             simp only [List.length_append, List.length_cons]
             omega)]

theorem pf_link (L : String) (fuel : Nat) (tail : List Char) (h : 2 ≤ fuel) :
    parseFields fuel ('\n' :: ' ' :: ' ' :: ' ' :: ' ' :: '"' :: 'd' :: 'e' :: 't' :: 'a' :: 'i' :: 'l' :: 'L' :: 'i' :: 'n' :: 'k' :: '"' :: ':' :: ' ' :: '"' ::(escList L.data ++ ('"' ::('\n' :: ' ' :: ' ' :: '}' ::tail)))) =
      some ([("detailLink", Json.jstr L)], tail) := by
  obtain ⟨g, rfl⟩ : ∃ g, fuel = g + 2 := ⟨fuel - 2, by omega⟩
  have hstep : parseFields (g + 2) ('\n' :: ' ' :: ' ' :: ' ' :: ' ' :: '"' :: 'd' :: 'e' :: 't' :: 'a' :: 'i' :: 'l' :: 'L' :: 'i' :: 'n' :: 'k' :: '"' :: ':' :: ' ' :: '"' ::(escList L.data ++ ('"' ::('\n' :: ' ' :: ' ' :: '}' ::tail)))) =
      match parseValue (g + 1) (' ' :: '"' ::(escList L.data ++ ('"' ::('\n' :: ' ' :: ' ' :: '}' ::tail)))) with
      | none => none
      | some (val, rest3) =>
        match rest3.dropWhile isJsonWs with
        | ',' :: rest4 =>
          (match parseFields (g + 1) rest4 with
           | some (fs, r) => some (("detailLink", val) :: fs, r)
           | none => none)
        | '}' :: rest4 => some ([("detailLink", val)], rest4)
        | _ => none := rfl
  rw [hstep, parseValue_strval L (g + 1) ('\n' :: ' ' :: ' ' :: '}' ::tail) (by omega)]
  rfl

theorem pf_desc_end (d : String) (fuel : Nat) (tail : List Char) (h : 2 ≤ fuel) :
    parseFields fuel ('\n' :: ' ' :: ' ' :: ' ' :: ' ' :: '"' :: 'd' :: 'e' :: 's' :: 'c' :: 'r' :: 'i' :: 'p' :: 't' :: 'i' :: 'o' :: 'n' :: '"' :: ':' :: ' ' :: '"' ::(escList d.data ++ ('"' ::('\n' :: ' ' :: ' ' :: '}' ::tail)))) =
      some ([("description", Json.jstr d)], tail) := by
  obtain ⟨g, rfl⟩ : ∃ g, fuel = g + 2 := ⟨fuel - 2, by omega⟩
  have hstep : parseFields (g + 2) ('\n' :: ' ' :: ' ' :: ' ' :: ' ' :: '"' :: 'd' :: 'e' :: 's' :: 'c' :: 'r' :: 'i' :: 'p' :: 't' :: 'i' :: 'o' :: 'n' :: '"' :: ':' :: ' ' :: '"' ::(escList d.data ++ ('"' ::('\n' :: ' ' :: ' ' :: '}' ::tail)))) =
      match parseValue (g + 1) (' ' :: '"' ::(escList d.data ++ ('"' ::('\n' :: ' ' :: ' ' :: '}' ::tail)))) with
      | none => none
      | some (val, rest3) =>
        match rest3.dropWhile isJsonWs with
        | ',' :: rest4 =>
          (match parseFields (g + 1) rest4 with
           | some (fs, r) => some (("description", val) :: fs, r)
           | none => none)
        | '}' :: rest4 => some ([("description", val)], rest4)
        | _ => none := rfl
  rw [hstep, parseValue_strval d (g + 1) ('\n' :: ' ' :: ' ' :: '}' ::tail) (by omega)]
  rfl

theorem pf_desc_link (d L : String) (fuel : Nat) (tail : List Char) (h : 3 ≤ fuel) :
    parseFields fuel ('\n' :: ' ' :: ' ' :: ' ' :: ' ' :: '"' :: 'd' :: 'e' :: 's' :: 'c' :: 'r' :: 'i' :: 'p' :: 't' :: 'i' :: 'o' :: 'n' :: '"' :: ':' :: ' ' :: '"' ::(escList d.data ++ ('"' ::(',' ::('\n' :: ' ' :: ' ' :: ' ' :: ' ' :: '"' :: 'd' :: 'e' :: 't' :: 'a' :: 'i' :: 'l' :: 'L' :: 'i' :: 'n' :: 'k' :: '"' :: ':' :: ' ' :: '"' ::(escList L.data ++ ('"' ::('\n' :: ' ' :: ' ' :: '}' ::tail)))))))) =
      some ([("description", Json.jstr d), ("detailLink", Json.jstr L)], tail) := by
  obtain ⟨g, rfl⟩ : ∃ g, fuel = g + 3 := ⟨fuel - 3, by omega⟩
  have hstep : parseFields (g + 3) ('\n' :: ' ' :: ' ' :: ' ' :: ' ' :: '"' :: 'd' :: 'e' :: 's' :: 'c' :: 'r' :: 'i' :: 'p' :: 't' :: 'i' :: 'o' :: 'n' :: '"' :: ':' :: ' ' :: '"' ::(escList d.data ++ ('"' ::(',' ::('\n' :: ' ' :: ' ' :: ' ' :: ' ' :: '"' :: 'd' :: 'e' :: 't' :: 'a' :: 'i' :: 'l' :: 'L' :: 'i' :: 'n' :: 'k' :: '"' :: ':' :: ' ' :: '"' ::(escList L.data ++ ('"' ::('\n' :: ' ' :: ' ' :: '}' ::tail)))))))) =
      match parseValue (g + 2) (' ' :: '"' ::(escList d.data ++ ('"' ::(',' ::('\n' :: ' ' :: ' ' :: ' ' :: ' ' :: '"' :: 'd' :: 'e' :: 't' :: 'a' :: 'i' :: 'l' :: 'L' :: 'i' :: 'n' :: 'k' :: '"' :: ':' :: ' ' :: '"' ::(escList L.data ++ ('"' ::('\n' :: ' ' :: ' ' :: '}' ::tail)))))))) with
      | none => none
      | some (val, rest3) =>
        match rest3.dropWhile isJsonWs with
        | ',' :: rest4 =>
          (match parseFields (g + 2) rest4 with
           | some (fs, r) => some (("description", val) :: fs, r)
           | none => none)
        | '}' :: rest4 => some ([("description", val)], rest4)
        | _ => none := rfl
  rw [hstep, parseValue_strval d (g + 2) (',' ::('\n' :: ' ' :: ' ' :: ' ' :: ' ' :: '"' :: 'd' :: 'e' :: 't' :: 'a' :: 'i' :: 'l' :: 'L' :: 'i' :: 'n' :: 'k' :: '"' :: ':' :: ' ' :: '"' ::(escList L.data ++ ('"' ::('\n' :: ' ' :: ' ' :: '}' ::tail))))) (by omega)]
  show (match parseFields (g + 2) ('\n' :: ' ' :: ' ' :: ' ' :: ' ' :: '"' :: 'd' :: 'e' :: 't' :: 'a' :: 'i' :: 'l' :: 'L' :: 'i' :: 'n' :: 'k' :: '"' :: ':' :: ' ' :: '"' ::(escList L.data ++ ('"' ::('\n' :: ' ' :: ' ' :: '}' ::tail)))) with
        | some (fs, r) => some (("description", Json.jstr d) :: fs, r)
        | none => none) = _
  rw [pf_link L (g + 2) tail (by omega)]

theorem pf_version_none (v d : String) (fuel : Nat) (tail : List Char) (h : 3 ≤ fuel) :
    parseFields fuel ('\n' :: ' ' :: ' ' :: ' ' :: ' ' :: '"' :: 'v' :: 'e' :: 'r' :: 's' :: 'i' :: 'o' :: 'n' :: '"' :: ':' :: ' ' :: '"' ::(escList v.data ++ ('"' ::(',' ::('\n' :: ' ' :: ' ' :: ' ' :: ' ' :: '"' :: 'd' :: 'e' :: 's' :: 'c' :: 'r' :: 'i' :: 'p' :: 't' :: 'i' :: 'o' :: 'n' :: '"' :: ':' :: ' ' :: '"' ::(escList d.data ++ ('"' ::('\n' :: ' ' :: ' ' :: '}' ::tail)))))))) =
      some ([("version", Json.jstr v), ("description", Json.jstr d)], tail) := by
  obtain ⟨g, rfl⟩ : ∃ g, fuel = g + 3 := ⟨fuel - 3, by omega⟩
  have hstep : parseFields (g + 3) ('\n' :: ' ' :: ' ' :: ' ' :: ' ' :: '"' :: 'v' :: 'e' :: 'r' :: 's' :: 'i' :: 'o' :: 'n' :: '"' :: ':' :: ' ' :: '"' ::(escList v.data ++ ('"' ::(',' ::('\n' :: ' ' :: ' ' :: ' ' :: ' ' :: '"' :: 'd' :: 'e' :: 's' :: 'c' :: 'r' :: 'i' :: 'p' :: 't' :: 'i' :: 'o' :: 'n' :: '"' :: ':' :: ' ' :: '"' ::(escList d.data ++ ('"' ::('\n' :: ' ' :: ' ' :: '}' ::tail)))))))) =
      match parseValue (g + 2) (' ' :: '"' ::(escList v.data ++ ('"' ::(',' ::('\n' :: ' ' :: ' ' :: ' ' :: ' ' :: '"' :: 'd' :: 'e' :: 's' :: 'c' :: 'r' :: 'i' :: 'p' :: 't' :: 'i' :: 'o' :: 'n' :: '"' :: ':' :: ' ' :: '"' ::(escList d.data ++ ('"' ::('\n' :: ' ' :: ' ' :: '}' ::tail)))))))) with
      | none => none
      | some (val, rest3) =>
        match rest3.dropWhile isJsonWs with
        | ',' :: rest4 =>
          (match parseFields (g + 2) rest4 with
           | some (fs, r) => some (("version", val) :: fs, r)
           | none => none)
        | '}' :: rest4 => some ([("version", val)], rest4)
        | _ => none := rfl
  rw [hstep, parseValue_strval v (g + 2) (',' ::('\n' :: ' ' :: ' ' :: ' ' :: ' ' :: '"' :: 'd' :: 'e' :: 's' :: 'c' :: 'r' :: 'i' :: 'p' :: 't' :: 'i' :: 'o' :: 'n' :: '"' :: ':' :: ' ' :: '"' ::(escList d.data ++ ('"' ::('\n' :: ' ' :: ' ' :: '}' ::tail))))) (by omega)]
  show (match parseFields (g + 2) ('\n' :: ' ' :: ' ' :: ' ' :: ' ' :: '"' :: 'd' :: 'e' :: 's' :: 'c' :: 'r' :: 'i' :: 'p' :: 't' :: 'i' :: 'o' :: 'n' :: '"' :: ':' :: ' ' :: '"' ::(escList d.data ++ ('"' ::('\n' :: ' ' :: ' ' :: '}' ::tail)))) with
        | some (fs, r) => some (("version", Json.jstr v) :: fs, r)
        | none => none) = _
  rw [pf_desc_end d (g + 2) tail (by omega)]

theorem pf_version_link (v d L : String) (fuel : Nat) (tail : List Char) (h : 4 ≤ fuel) :
    parseFields fuel ('\n' :: ' ' :: ' ' :: ' ' :: ' ' :: '"' :: 'v' :: 'e' :: 'r' :: 's' :: 'i' :: 'o' :: 'n' :: '"' :: ':' :: ' ' :: '"' ::(escList v.data ++ ('"' ::(',' ::('\n' :: ' ' :: ' ' :: ' ' :: ' ' :: '"' :: 'd' :: 'e' :: 's' :: 'c' :: 'r' :: 'i' :: 'p' :: 't' :: 'i' :: 'o' :: 'n' :: '"' :: ':' :: ' ' :: '"' ::(escList d.data ++ ('"' ::(',' ::('\n' :: ' ' :: ' ' :: ' ' :: ' ' :: '"' :: 'd' :: 'e' :: 't' :: 'a' :: 'i' :: 'l' :: 'L' :: 'i' :: 'n' :: 'k' :: '"' :: ':' :: ' ' :: '"' ::(escList L.data ++ ('"' ::('\n' :: ' ' :: ' ' :: '}' ::tail)))))))))))) =
      some ([("version", Json.jstr v), ("description", Json.jstr d),
        ("detailLink", Json.jstr L)], tail) := by
  obtain ⟨g, rfl⟩ : ∃ g, fuel = g + 4 := ⟨fuel - 4, by omega⟩
  have hstep : parseFields (g + 4) ('\n' :: ' ' :: ' ' :: ' ' :: ' ' :: '"' :: 'v' :: 'e' :: 'r' :: 's' :: 'i' :: 'o' :: 'n' :: '"' :: ':' :: ' ' :: '"' ::(escList v.data ++ ('"' ::(',' ::('\n' :: ' ' :: ' ' :: ' ' :: ' ' :: '"' :: 'd' :: 'e' :: 's' :: 'c' :: 'r' :: 'i' :: 'p' :: 't' :: 'i' :: 'o' :: 'n' :: '"' :: ':' :: ' ' :: '"' ::(escList d.data ++ ('"' ::(',' ::('\n' :: ' ' :: ' ' :: ' ' :: ' ' :: '"' :: 'd' :: 'e' :: 't' :: 'a' :: 'i' :: 'l' :: 'L' :: 'i' :: 'n' :: 'k' :: '"' :: ':' :: ' ' :: '"' ::(escList L.data ++ ('"' ::('\n' :: ' ' :: ' ' :: '}' ::tail)))))))))))) =
      match parseValue (g + 3) (' ' :: '"' ::(escList v.data ++ ('"' ::(',' ::('\n' :: ' ' :: ' ' :: ' ' :: ' ' :: '"' :: 'd' :: 'e' :: 's' :: 'c' :: 'r' :: 'i' :: 'p' :: 't' :: 'i' :: 'o' :: 'n' :: '"' :: ':' :: ' ' :: '"' ::(escList d.data ++ ('"' ::(',' ::('\n' :: ' ' :: ' ' :: ' ' :: ' ' :: '"' :: 'd' :: 'e' :: 't' :: 'a' :: 'i' :: 'l' :: 'L' :: 'i' :: 'n' :: 'k' :: '"' :: ':' :: ' ' :: '"' ::(escList L.data ++ ('"' ::('\n' :: ' ' :: ' ' :: '}' ::tail)))))))))))) with
      | none => none
      | some (val, rest3) =>
        match rest3.dropWhile isJsonWs with
        | ',' :: rest4 =>
          (match parseFields (g + 3) rest4 with
           | some (fs, r) => some (("version", val) :: fs, r)
           | none => none)
        | '}' :: rest4 => some ([("version", val)], rest4)
        | _ => none := rfl
  rw [hstep, parseValue_strval v (g + 3) (',' ::('\n' :: ' ' :: ' ' :: ' ' :: ' ' :: '"' :: 'd' :: 'e' :: 's' :: 'c' :: 'r' :: 'i' :: 'p' :: 't' :: 'i' :: 'o' :: 'n' :: '"' :: ':' :: ' ' :: '"' ::(escList d.data ++ ('"' ::(',' ::('\n' :: ' ' :: ' ' :: ' ' :: ' ' :: '"' :: 'd' :: 'e' :: 't' :: 'a' :: 'i' :: 'l' :: 'L' :: 'i' :: 'n' :: 'k' :: '"' :: ':' :: ' ' :: '"' ::(escList L.data ++ ('"' ::('\n' :: ' ' :: ' ' :: '}' ::tail))))))))) (by omega)]
  show (match parseFields (g + 3) ('\n' :: ' ' :: ' ' :: ' ' :: ' ' :: '"' :: 'd' :: 'e' :: 's' :: 'c' :: 'r' :: 'i' :: 'p' :: 't' :: 'i' :: 'o' :: 'n' :: '"' :: ':' :: ' ' :: '"' ::(escList d.data ++ ('"' ::(',' ::('\n' :: ' ' :: ' ' :: ' ' :: ' ' :: '"' :: 'd' :: 'e' :: 't' :: 'a' :: 'i' :: 'l' :: 'L' :: 'i' :: 'n' :: 'k' :: '"' :: ':' :: ' ' :: '"' ::(escList L.data ++ ('"' ::('\n' :: ' ' :: ' ' :: '}' ::tail)))))))) with
        | some (fs, r) => some (("version", Json.jstr v) :: fs, r)
        | none => none) = _
  rw [pf_desc_link d L (g + 3) tail (by omega)]

theorem parseValue_renderEntry (e : ChangelogEntry) (fuel : Nat) (tail : List Char)
    (h : 5 ≤ fuel) :
    parseValue fuel ('\n' :: (renderEntry e ++ tail)) = some (entryJson e, tail) := by
  obtain ⟨g, rfl⟩ : ∃ g, fuel = g + 5 := ⟨fuel - 5, by omega⟩
  obtain ⟨v, d, dl⟩ := e
  have hk1 : "    \"version\": ".data =
      [' ',' ',' ',' ','"','v','e','r','s','i','o','n','"',':',' '] := rfl
  have hk2 : "    \"description\": ".data =
      [' ',' ',' ',' ','"','d','e','s','c','r','i','p','t','i','o','n','"',':',' '] := rfl
  have hk3 : "    \"detailLink\": ".data =
      [' ',' ',' ',' ','"','d','e','t','a','i','l','L','i','n','k','"',':',' '] := rfl
  cases dl with
  | none =>
    have hre : '\n' :: (renderEntry ⟨v, d, none⟩ ++ tail) =
        '\n' :: ' ' :: ' ' :: '{' ::('\n' :: ' ' :: ' ' :: ' ' :: ' ' :: '"' :: 'v' :: 'e' :: 'r' :: 's' :: 'i' :: 'o' :: 'n' :: '"' :: ':' :: ' ' :: '"' ::(escList v.data ++ ('"' ::(',' ::('\n' :: ' ' :: ' ' :: ' ' :: ' ' :: '"' :: 'd' :: 'e' :: 's' :: 'c' :: 'r' :: 'i' :: 'p' :: 't' :: 'i' :: 'o' :: 'n' :: '"' :: ':' :: ' ' :: '"' ::(escList d.data ++ ('"' ::('\n' :: ' ' :: ' ' :: '}' ::tail)))))))) := by
      simp [renderEntry, quoteStr, hk1, hk2]
    rw [hre]
    have hstep : parseValue (g + 5) ('\n' :: ' ' :: ' ' :: '{' ::('\n' :: ' ' :: ' ' :: ' ' :: ' ' :: '"' :: 'v' :: 'e' :: 'r' :: 's' :: 'i' :: 'o' :: 'n' :: '"' :: ':' :: ' ' :: '"' ::(escList v.data ++ ('"' ::(',' ::('\n' :: ' ' :: ' ' :: ' ' :: ' ' :: '"' :: 'd' :: 'e' :: 's' :: 'c' :: 'r' :: 'i' :: 'p' :: 't' :: 'i' :: 'o' :: 'n' :: '"' :: ':' :: ' ' :: '"' ::(escList d.data ++ ('"' ::('\n' :: ' ' :: ' ' :: '}' ::tail))))))))) =
        match parseFields (g + 4) ('\n' :: ' ' :: ' ' :: ' ' :: ' ' :: '"' :: 'v' :: 'e' :: 'r' :: 's' :: 'i' :: 'o' :: 'n' :: '"' :: ':' :: ' ' :: '"' ::(escList v.data ++ ('"' ::(',' ::('\n' :: ' ' :: ' ' :: ' ' :: ' ' :: '"' :: 'd' :: 'e' :: 's' :: 'c' :: 'r' :: 'i' :: 'p' :: 't' :: 'i' :: 'o' :: 'n' :: '"' :: ':' :: ' ' :: '"' ::(escList d.data ++ ('"' ::('\n' :: ' ' :: ' ' :: '}' ::tail)))))))) with
        | some (fs, rest) => some (Json.jobj fs, rest)
        | none => none := rfl
    rw [hstep, pf_version_none v d (g + 4) tail (by omega)]
    rfl
  | some L =>
    have hre : '\n' :: (renderEntry ⟨v, d, some L⟩ ++ tail) =
        '\n' :: ' ' :: ' ' :: '{' ::('\n' :: ' ' :: ' ' :: ' ' :: ' ' :: '"' :: 'v' :: 'e' :: 'r' :: 's' :: 'i' :: 'o' :: 'n' :: '"' :: ':' :: ' ' :: '"' ::(escList v.data ++ ('"' ::(',' ::('\n' :: ' ' :: ' ' :: ' ' :: ' ' :: '"' :: 'd' :: 'e' :: 's' :: 'c' :: 'r' :: 'i' :: 'p' :: 't' :: 'i' :: 'o' :: 'n' :: '"' :: ':' :: ' ' :: '"' ::(escList d.data ++ ('"' ::(',' ::('\n' :: ' ' :: ' ' :: ' ' :: ' ' :: '"' :: 'd' :: 'e' :: 't' :: 'a' :: 'i' :: 'l' :: 'L' :: 'i' :: 'n' :: 'k' :: '"' :: ':' :: ' ' :: '"' ::(escList L.data ++ ('"' ::('\n' :: ' ' :: ' ' :: '}' ::tail)))))))))))) := by
      simp [renderEntry, quoteStr, hk1, hk2, hk3]
    rw [hre]
    have hstep : parseValue (g + 5) ('\n' :: ' ' :: ' ' :: '{' ::('\n' :: ' ' :: ' ' :: ' ' :: ' ' :: '"' :: 'v' :: 'e' :: 'r' :: 's' :: 'i' :: 'o' :: 'n' :: '"' :: ':' :: ' ' :: '"' ::(escList v.data ++ ('"' ::(',' ::('\n' :: ' ' :: ' ' :: ' ' :: ' ' :: '"' :: 'd' :: 'e' :: 's' :: 'c' :: 'r' :: 'i' :: 'p' :: 't' :: 'i' :: 'o' :: 'n' :: '"' :: ':' :: ' ' :: '"' ::(escList d.data ++ ('"' ::(',' ::('\n' :: ' ' :: ' ' :: ' ' :: ' ' :: '"' :: 'd' :: 'e' :: 't' :: 'a' :: 'i' :: 'l' :: 'L' :: 'i' :: 'n' :: 'k' :: '"' :: ':' :: ' ' :: '"' ::(escList L.data ++ ('"' ::('\n' :: ' ' :: ' ' :: '}' ::tail))))))))))))) =
        match parseFields (g + 4) ('\n' :: ' ' :: ' ' :: ' ' :: ' ' :: '"' :: 'v' :: 'e' :: 'r' :: 's' :: 'i' :: 'o' :: 'n' :: '"' :: ':' :: ' ' :: '"' ::(escList v.data ++ ('"' ::(',' ::('\n' :: ' ' :: ' ' :: ' ' :: ' ' :: '"' :: 'd' :: 'e' :: 's' :: 'c' :: 'r' :: 'i' :: 'p' :: 't' :: 'i' :: 'o' :: 'n' :: '"' :: ':' :: ' ' :: '"' ::(escList d.data ++ ('"' ::(',' ::('\n' :: ' ' :: ' ' :: ' ' :: ' ' :: '"' :: 'd' :: 'e' :: 't' :: 'a' :: 'i' :: 'l' :: 'L' :: 'i' :: 'n' :: 'k' :: '"' :: ':' :: ' ' :: '"' ::(escList L.data ++ ('"' ::('\n' :: ' ' :: ' ' :: '}' ::tail)))))))))))) with
        | some (fs, rest) => some (Json.jobj fs, rest)
        | none => none := rfl
    rw [hstep, pf_version_link v d L (g + 4) tail (by omega)]
    rfl

theorem parseItems_joinEntries :
    ∀ (rest : List ChangelogEntry) (e : ChangelogEntry) (fuel : Nat) (tail : List Char),
      rest.length + 6 ≤ fuel →
      parseItems fuel ('\n' :: (joinEntries (e :: rest) ++ ('\n' :: ']' ::tail))) =
        some ((e :: rest).map entryJson, tail) := by
  intro rest
  induction rest with
  | nil =>
    intro e fuel tail hf
    obtain ⟨g, rfl⟩ : ∃ g, fuel = g + 6 := ⟨fuel - 6, by omega⟩
    have hj : joinEntries [e] ++ ('\n' :: ']' ::tail) =
        renderEntry e ++ ('\n' :: ']' ::tail) := rfl
    rw [hj]
    have hstep : parseItems (g + 6) ('\n' :: (renderEntry e ++ ('\n' :: ']' ::tail))) =
        match parseValue (g + 5) ('\n' :: (renderEntry e ++ ('\n' :: ']' ::tail))) with
        | none => none
        | some (val, rest2) =>
          match rest2.dropWhile isJsonWs with
          | ',' :: rest3 =>
            (match parseItems (g + 5) rest3 with
             | some (vs, r) => some (val :: vs, r)
             | none => none)
          | ']' :: rest3 => some ([val], rest3)
          | _ => none := rfl
    rw [hstep, parseValue_renderEntry e (g + 5) ('\n' :: ']' ::tail) (by omega)]
    rfl
  | cons e2 rest ih =>
    intro e fuel tail hf
    obtain ⟨g, rfl⟩ : ∃ g, fuel = (g + rest.length + 6) + 1 :=
      ⟨fuel - rest.length - 7, by simp [List.length_cons] at hf; omega⟩
    have hj : joinEntries (e :: e2 :: rest) ++ ('\n' :: ']' ::tail) =
        renderEntry e ++ (',' :: '\n' ::(joinEntries (e2 :: rest) ++ ('\n' :: ']' ::tail))) := by
      show (renderEntry e ++ ',' :: '\n' ::joinEntries (e2 :: rest)) ++ ('\n' :: ']' ::tail) = _
      simp
    rw [hj]
    have hstep : parseItems ((g + rest.length + 6) + 1)
        ('\n' :: (renderEntry e ++
          (',' :: '\n' ::(joinEntries (e2 :: rest) ++ ('\n' :: ']' ::tail))))) =
        match parseValue (g + rest.length + 6)
            ('\n' :: (renderEntry e ++
              (',' :: '\n' ::(joinEntries (e2 :: rest) ++ ('\n' :: ']' ::tail))))) with
        | none => none
        | some (val, rest2) =>
          match rest2.dropWhile isJsonWs with
          | ',' :: rest3 =>
            (match parseItems (g + rest.length + 6) rest3 with
             | some (vs, r) => some (val :: vs, r)
             | none => none)
          | ']' :: rest3 => some ([val], rest3)
          | _ => none := rfl
    rw [hstep, parseValue_renderEntry e (g + rest.length + 6) _ (by omega)]
    show (match parseItems (g + rest.length + 6)
        ('\n' :: (joinEntries (e2 :: rest) ++ ('\n' :: ']' ::tail))) with
      | some (vs, r) => some (entryJson e :: vs, r)
      | none => none) = _
    rw [ih e2 (g + rest.length + 6) tail (by omega)]
    rfl

theorem renderEntry_length (e : ChangelogEntry) : 48 ≤ (renderEntry e).length := by
  obtain ⟨v, d, dl⟩ := e
  have hk1 : ("    \"version\": ".data).length = 15 := rfl
  have hk2 : ("    \"description\": ".data).length = 19 := rfl
  have hk3 : ("    \"detailLink\": ".data).length = 18 := rfl
  cases dl <;>
    (simp only [renderEntry, quoteStr, List.length_append, List.length_cons, hk1, hk2, hk3]
     omega)

theorem joinEntries_length :
    ∀ (rest : List ChangelogEntry) (e : ChangelogEntry),
      rest.length + 48 ≤ (joinEntries (e :: rest)).length := by
  intro rest
  induction rest with
  | nil =>
    intro e
    show _ ≤ (renderEntry e).length
    simpa using renderEntry_length e
  | cons e2 rest ih =>
    intro e
    have hj : joinEntries (e :: e2 :: rest) =
        renderEntry e ++ ',' :: '\n' ::joinEntries (e2 :: rest) := rfl
    rw [hj]
    have h1 := renderEntry_length e
    have h2 := ih e2
    simp only [List.length_append, List.length_cons]
    omega

theorem dropWhile_joinEntries (e : ChangelogEntry) (rest : List ChangelogEntry)
    (X : List Char) :
    ∃ Z, ('\n' :: (joinEntries (e :: rest) ++ X)).dropWhile isJsonWs = '{' :: Z := by
  obtain ⟨v, d, dl⟩ := e
  cases rest <;> cases dl <;> exact ⟨_, rfl⟩

theorem jsonParse_stringify (l : List ChangelogEntry) :
    jsonParse (stringifyChangelog l) = some (.jarr (l.map entryJson)) := by
  cases l with
  | nil => rfl
  | cons e rest =>
    have hs : stringifyChangelog (e :: rest) =
        String.mk ('[' :: '\n' :: (joinEntries (e :: rest) ++ ['\n', ']'])) := rfl
    rw [hs]
    have hlen : rest.length + 6 ≤
        ('[' :: '\n' :: (joinEntries (e :: rest) ++ ['\n', ']'])).length := by
      have h1 := joinEntries_length rest e
      simp only [List.length_cons, List.length_append, List.length_nil]
      omega
    have hstep : jsonParse
        (String.mk ('[' :: '\n' :: (joinEntries (e :: rest) ++ ['\n', ']']))) =
        match parseValue
            (('[' :: '\n' :: (joinEntries (e :: rest) ++ ['\n', ']'])).length + 1)
            ('[' :: '\n' :: (joinEntries (e :: rest) ++ ['\n', ']'])) with
        | some (v, rest2) => if rest2.dropWhile isJsonWs = [] then some v else none
        | none => none := rfl
    obtain ⟨Z, hZ⟩ := dropWhile_joinEntries e rest ['\n', ']']
    have hstep2 : (match parseValue
            (('[' :: '\n' :: (joinEntries (e :: rest) ++ ['\n', ']'])).length + 1)
            ('[' :: '\n' :: (joinEntries (e :: rest) ++ ['\n', ']'])) with
        | some (v, rest2) => if rest2.dropWhile isJsonWs = [] then some v else none
        | none => none) =
        (match (match ('\n' :: (joinEntries (e :: rest) ++ ['\n', ']'])).dropWhile isJsonWs with
          | ']' :: r => some (Json.jarr [], r)
          | _ =>
            match parseItems
                (('[' :: '\n' :: (joinEntries (e :: rest) ++ ['\n', ']'])).length)
                ('\n' :: (joinEntries (e :: rest) ++ ['\n', ']'])) with
            | some (items, r) => some (Json.jarr items, r)
            | none => none) with
        | some (v, rest2) => if rest2.dropWhile isJsonWs = [] then some v else none
        | none => none) := rfl
    rw [hstep, hstep2, hZ]
    show (match (match parseItems
            (('[' :: '\n' :: (joinEntries (e :: rest) ++ ['\n', ']'])).length)
            ('\n' :: (joinEntries (e :: rest) ++ ['\n', ']'])) with
        | some (items, r) => some (Json.jarr items, r)
        | none => none) with
      | some (v, rest2) => if rest2.dropWhile isJsonWs = [] then some v else none
      | none => none) = _
    rw [parseItems_joinEntries rest e
      (('[' :: '\n' :: (joinEntries (e :: rest) ++ ['\n', ']'])).length) [] hlen]
    rfl

theorem decodeEntry_entryJson (e : ChangelogEntry) : decodeEntry (entryJson e) = some e := by
  obtain ⟨v, d, dl⟩ := e
  cases dl <;> rfl

theorem decodeEntries_map (l : List ChangelogEntry) :
    decodeEntries (.jarr (l.map entryJson)) = some l := by
  induction l with
  | nil => rfl
  | cons e rest ih =>
    have ih2 : (rest.map entryJson).mapM decodeEntry = some rest := ih
    show ((e :: rest).map entryJson).mapM decodeEntry = some (e :: rest)
    rw [List.map_cons, List.mapM_cons, decodeEntry_entryJson, ih2]
    rfl

/-! ## Claim theorems (first batch) -/

/-- C7: the cleaning operation is a pure total function applying the
source's substitutions in their exact order; on the specified inputs it
yields exactly `clean(" - Fixed a crash. ") = "Fixed a crash."`,
`clean("[See details](https://x.com/y)") = "See details"` and
`clean("of the editor crashing") = ""`. -/
theorem claimC7_cleaning :
    cleanDescription " - Fixed a crash. " = "Fixed a crash." ∧
    cleanDescription "[See details](https://x.com/y)" = "See details" ∧
    cleanDescription "of the editor crashing" = "" :=
  ⟨by decide, by decide, by decide⟩

/-- C3: ordering of consolidated records is the stable newest-first
sort on the endpoint/wildcard/3-tuple key: ties preserve original
relative order for every input list, the key of a range is its right
endpoint, a wildcard component reads as 999, and the records
`0.48.x`, `0.48.2`, `0.47.9` order to exactly that sequence from every
one of the six input orders. -/
theorem claimC3_ordering :
    (∀ (l : List ChangelogEntry) (t : List Int),
      (orderChangelog l).filter (fun e => decide (getVersionTuple e.version = t)) =
        l.filter (fun e => decide (getVersionTuple e.version = t))) ∧
    getVersionTuple "0.48.x" = [0, 48, 999] ∧
    getVersionTuple "0.46.1-0.46.5" = [0, 46, 5] ∧
    (let a : ChangelogEntry := ⟨"0.48.x", "series summary entry", none⟩
     let b : ChangelogEntry := ⟨"0.48.2", "patch summary entry", none⟩
     let c : ChangelogEntry := ⟨"0.47.9", "older patch entry", none⟩
     orderChangelog [a, b, c] = [a, b, c] ∧ orderChangelog [a, c, b] = [a, b, c] ∧
     orderChangelog [b, a, c] = [a, b, c] ∧ orderChangelog [b, c, a] = [a, b, c] ∧
     orderChangelog [c, a, b] = [a, b, c] ∧ orderChangelog [c, b, a] = [a, b, c]) := by
  refine ⟨?stable, by decide, by decide, by decide⟩
  intro l t
  exact jsSortBy_filter_ties (fun e => getVersionTuple e.version) l t

/-- C8 (counterexample): over the stored sequence
`[0.48.x-0.48.1, 0.48.2]` the first record's version is a range, not a
wildcard minor-series label, yet `getLatestVersion` skips it (its
version contains an `x`) and returns the second record — contradicting
"returns the first record whose version is not a wildcard minor-series
label". -/
theorem claimC8_counterexample :
    specWildcardLabel "0.48.x-0.48.1" = false ∧
    getLatestVersion [⟨"0.48.x-0.48.1", "shared range description", none⟩,
                      ⟨"0.48.2", "another patch description", none⟩] =
      some ⟨"0.48.2", "another patch description", none⟩ ∧
    (⟨"0.48.2", "another patch description", none⟩ : ChangelogEntry) ≠
      ⟨"0.48.x-0.48.1", "shared range description", none⟩ := by
  refine ⟨by decide, by decide, by decide⟩

/-- C8 (amended): `latest()` returns the first record whose version
string does not contain the character `x`; when every version contains
an `x` it returns the very first record; it returns none exactly when
the sequence is empty.  Over `[0.48.x, 0.48.2]` it returns the 0.48.2
record. -/
theorem claimC8_amended :
    (∀ l : List ChangelogEntry,
      getLatestVersion l =
        (l.find? (fun e => !containsChar e.version.data 'x')).orElse (fun _ => l.head?)) ∧
    (∀ l : List ChangelogEntry, getLatestVersion l = none ↔ l = []) ∧
    getLatestVersion [⟨"0.48.x", "series summary text", none⟩,
                      ⟨"0.48.2", "patch summary text", none⟩] =
      some ⟨"0.48.2", "patch summary text", none⟩ := by
  refine ⟨?eqn, ?noneIff, by decide⟩
  · intro l
    cases l with
    | nil => rfl
    | cons e rest =>
      show (match findFirstNonX (e :: rest) with
            | some x => some x
            | none => some e) = _
      rw [findFirstNonX_eq_find?]
      cases h : (e :: rest).find? (fun e => !containsChar e.version.data 'x') with
      | some x => simp [h, Option.orElse]
      | none => simp [h, Option.orElse]
  · intro l
    cases l with
    | nil => simp [getLatestVersion]
    | cons e rest =>
      constructor
      · intro h
        exfalso
        revert h
        show (match findFirstNonX (e :: rest) with
              | some x => some x
              | none => some e) = none → False
        cases findFirstNonX (e :: rest) <;> simp
      · intro h; cases h

/-- C1 (counterexample): on this raw text the inline-run strategy's
candidate for version 0.1.2 has a strictly longer cleaned description
than the one already stored by the section strategy, yet the fold keeps
the stored description — the "overwritten exactly when strictly longer"
merge rule does not hold for the inline-run fold. -/
theorem claimC1_counterexample :
    alLookup (extractIndividualPatches
        "0.1.x\nv 0.1.2 - Fixed many bugZ more description text - 0.1.3 - another fix entry here\n0.2.x\nx")
        "0.1.2" =
      some ⟨"Fixed many bugZ more description text", none⟩ ∧
    alLookup (extractAllPatches
        "0.1.x\nv 0.1.2 - Fixed many bugZ more description text - 0.1.3 - another fix entry here\n0.2.x\nx")
        "0.1.2" =
      some ⟨"Fixed many bug", none⟩ ∧
    ("Fixed many bug" : String).length < ("Fixed many bugZ more description text" : String).length := by
  refine ⟨by decide, by decide, by decide⟩

/-- C1 (amended): the four folds follow different merge rules.  The
section fold is first-wins per version, with the section link inherited
on insert when the candidate brings none; the inline-run fold never
replaces a stored description and only adopts a link when the stored
entry has none; the line-anchored fold overwrites exactly when the new
cleaned description is strictly longer, always keeping the stored link;
the Patches-subsection fold overwrites exactly when strictly longer
with first-link-wins. -/
theorem claimC1_amended :
    (∀ (dl : Option String) (ap : PatchMap) (v : String) (pd : PatchData),
      alLookup (sectionPatchStep dl ap (v, pd)) v =
        some (match alLookup ap v with
              | some ex => ex
              | none => ⟨pd.description, pd.detailLink.orElse (fun _ => dl)⟩)) ∧
    (∀ (ap : PatchMap) (v : String) (pd : PatchData),
      alLookup (inlineMergeStep ap (v, pd)) v =
        some (match alLookup ap v with
              | none => pd
              | some ex => ⟨ex.description, ex.detailLink.orElse (fun _ => pd.detailLink)⟩)) ∧
    (∀ (ap : PatchMap) (v : String) (d : String),
      alLookup (lineOverwriteStep ap v d) v =
        some (match alLookup ap v with
              | none => ⟨d, none⟩
              | some ex =>
                if ex.description.length < d.length then ⟨d, ex.detailLink⟩ else ex)) ∧
    (∀ (ap : PatchMap) (v : String) (pd : PatchData),
      alLookup (patchesMergeStep ap (v, pd)) v =
        some (match alLookup ap v with
              | none => pd
              | some ex =>
                if ex.description.length < pd.description.length then
                  ⟨pd.description, ex.detailLink.orElse (fun _ => pd.detailLink)⟩
                else ex)) :=
  ⟨sectionPatchStep_lookup, inlineMergeStep_lookup, lineOverwriteStep_lookup,
    patchesMergeStep_lookup⟩

/-- C4 (counterexample): the wildcard label 0.48.x survives the group
filter (which only tests the `0.` head), is parsed with patch component
0 and merges with 0.48.1 into the emitted range `0.48.x-0.48.1` — it is
neither removed from its group nor kept out of the emitted records. -/
theorem claimC4_counterexample :
    consolidateVersions
        [("0.48.x", ⟨"a description long enough", none⟩),
         ("0.48.1", ⟨"a description long enough", none⟩)] =
      [⟨"0.48.x-0.48.1", "a description long enough", none⟩] ∧
    specStrictTriple "0.48.x" = false := by
  refine ⟨by decide, by decide⟩

/-- C5 (counterexample): a section headed `1.2.x` passes the section
strategy unfiltered — the extraction output maps key `1.2.x`, whose
leading component is 1, to a stored candidate. -/
theorem claimC5_counterexample :
    alLookup (extractAllPatches
        "1.2.x\n## [T](http://a/b)\n\nA nice description paragraph\n\n0.9.x") "1.2.x" =
      some ⟨"A nice description paragraph", some "http://a/b"⟩ ∧
    versionParts "1.2.x" = [1, 2, 0] ∧
    leadsWith ['0', '.'] "1.2.x".data = false := by
  refine ⟨by decide, by decide, by decide⟩

/-- C6 (counterexample): a candidate whose cleaned description has
length exactly 10 (`Abcdefghij`, neither empty nor blacklisted) is
discarded by extraction: the strategies keep only cleaned lengths
strictly greater than 10. -/
theorem claimC6_counterexample :
    extractIndividualPatches "0.1.2 - Abcdefghij" = [] ∧
    extractAllPatches "0.1.2 - Abcdefghij" = [] ∧
    cleanDescription "Abcdefghij" = "Abcdefghij" ∧
    ("Abcdefghij" : String).length = 10 ∧
    ¬ ("Abcdefghij" : String) ∈ descBlacklist := by
  refine ⟨by decide, by decide, by decide, by decide, by decide⟩

/-- C4 (amended): within each description group, consolidation keeps
exactly the members whose version string starts with `0.`; every
emitted record's description is the description of some input entry,
and its version is either a kept map key or the hyphen join of two
kept map keys (so a wildcard label such as 0.48.x, which passes the
`0.` test, can reach the emitted records, as the counterexample
shows). -/
theorem claimC4_amended (m : PatchMap) (e : ChangelogEntry)
    (he : e ∈ consolidateVersions m) :
    (∃ q, q ∈ m ∧ e.description = q.snd.description) ∧
    ((∃ v, v ∈ m.map Prod.fst ∧ leadsWith ['0', '.'] v.data = true ∧ e.version = v) ∨
     (∃ v w, v ∈ m.map Prod.fst ∧ w ∈ m.map Prod.fst ∧
       leadsWith ['0', '.'] v.data = true ∧ leadsWith ['0', '.'] w.data = true ∧
       e.version = v ++ "-" ++ w)) :=
  consolidate_provenance m e he

/-- C4 witness: the amended theorem applied to a concrete map and
record. -/
theorem claimC4_witness :
    (⟨"0.48.x-0.48.1", "a description long enough", none⟩ : ChangelogEntry) ∈
      consolidateVersions
        [("0.48.x", ⟨"a description long enough", none⟩),
         ("0.48.1", ⟨"a description long enough", none⟩)] ∧
    ((∃ q, q ∈ ([("0.48.x", ⟨"a description long enough", none⟩),
         ("0.48.1", ⟨"a description long enough", none⟩)] : PatchMap) ∧
       (⟨"0.48.x-0.48.1", "a description long enough", none⟩ : ChangelogEntry).description =
         q.snd.description) ∧
     ((∃ v, v ∈ ([("0.48.x", ⟨"a description long enough", none⟩),
          ("0.48.1", ⟨"a description long enough", none⟩)] : PatchMap).map Prod.fst ∧
        leadsWith ['0', '.'] v.data = true ∧
        (⟨"0.48.x-0.48.1", "a description long enough", none⟩ : ChangelogEntry).version = v) ∨
      (∃ v w, v ∈ ([("0.48.x", ⟨"a description long enough", none⟩),
          ("0.48.1", ⟨"a description long enough", none⟩)] : PatchMap).map Prod.fst ∧
        w ∈ ([("0.48.x", ⟨"a description long enough", none⟩),
          ("0.48.1", ⟨"a description long enough", none⟩)] : PatchMap).map Prod.fst ∧
        leadsWith ['0', '.'] v.data = true ∧ leadsWith ['0', '.'] w.data = true ∧
        (⟨"0.48.x-0.48.1", "a description long enough", none⟩ : ChangelogEntry).version =
          v ++ "-" ++ w))) :=
  ⟨by decide, claimC4_amended _ _ (by decide)⟩

/-- C5 (amended): every PatchMap key produced by extraction either has
leading component 0 (its string starts with `0.`, checked by all three
patch-level strategies) or is a wildcard section label stored verbatim
by the section strategy, which performs no leading-component check. -/
theorem claimC5_amended (text : String) (p : String × PatchData)
    (h : p ∈ extractAllPatches text) :
    leadsWith ['0', '.'] p.fst.data = true ∨ p.fst ∈ sectionLabels text :=
  (extractAllPatches_entries text p h).1

/-- C5 witness: the amended theorem applied at a concrete text whose
section strategy stores the label 1.2.x. -/
theorem claimC5_witness :
    ("1.2.x", (⟨"A nice description paragraph", some "http://a/b"⟩ : PatchData)) ∈
      extractAllPatches "1.2.x\n## [T](http://a/b)\n\nA nice description paragraph\n\n0.9.x" ∧
    (leadsWith ['0', '.'] ("1.2.x" : String).data = true ∨
      ("1.2.x" : String) ∈
        sectionLabels "1.2.x\n## [T](http://a/b)\n\nA nice description paragraph\n\n0.9.x") :=
  ⟨by decide,
    claimC5_amended "1.2.x\n## [T](http://a/b)\n\nA nice description paragraph\n\n0.9.x"
      ("1.2.x", ⟨"A nice description paragraph", some "http://a/b"⟩) (by decide)⟩

/-- C6 (amended): extraction keeps a candidate exactly when its cleaned
description is non-empty and strictly longer than 10 characters: every
entry of the extraction output and every record returned by an update
has a non-empty description of length at least 11, and a cleaned
description of length exactly 11 is kept. -/
theorem claimC6_amended :
    (∀ (text : String) (p : String × PatchData), p ∈ extractAllPatches text →
      p.snd.description ≠ "" ∧ 10 < p.snd.description.length) ∧
    (∀ (text : String) (e : ChangelogEntry), e ∈ updateChangelogFromMarkdown text →
      e.description ≠ "" ∧ 10 < e.description.length) ∧
    extractIndividualPatches "0.1.2 - Abcdefghijk" =
      [("0.1.2", ⟨"Abcdefghijk", none⟩)] := by
  refine ⟨?ext, ?rec, by decide⟩
  · intro text p hp
    exact (extractAllPatches_entries text p hp).2
  · intro text e he
    have hprov := consolidate_provenance (extractAllPatches text) e he
    rcases hprov.1 with ⟨q, hq, hdesc⟩
    have := (extractAllPatches_entries text q hq).2
    exact ⟨hdesc ▸ this.1, hdesc ▸ this.2⟩

/-- C6 witness: the amended theorem applied at a concrete text and
entry. -/
theorem claimC6_witness :
    (("0.1.3", (⟨"another fix entry here", none⟩ : PatchData)) ∈
      extractAllPatches "0.1.3 - another fix entry here" ∧
      (⟨"another fix entry here", none⟩ : PatchData).description ≠ "" ∧
      10 < (⟨"another fix entry here", none⟩ : PatchData).description.length) ∧
    ((⟨"0.1.3", "another fix entry here", none⟩ : ChangelogEntry) ∈
      updateChangelogFromMarkdown "0.1.3 - another fix entry here" ∧
      ("another fix entry here" : String) ≠ "" ∧
      10 < ("another fix entry here" : String).length) := by
  refine ⟨⟨?m1, ?c1⟩, ⟨?m2, ?c2⟩⟩
  case m1 => decide
  case c1 =>
    exact claimC6_amended.1 "0.1.3 - another fix entry here"
      ("0.1.3", ⟨"another fix entry here", none⟩) (by decide)
  case m2 => decide
  case c2 =>
    exact claimC6_amended.2.1 "0.1.3 - another fix entry here"
      ⟨"0.1.3", "another fix entry here", none⟩ (by decide)

/-- C10: the pipeline is deterministic in the fetched text — two update
runs whose fetch yields the same markdown return identical record
sequences and write identical snapshots. -/
theorem claimC10_determinism (t1 t2 : String) (h : t1 = t2) :
    updateChangelogFromMarkdown t1 = updateChangelogFromMarkdown t2 ∧
    savedSnapshot t1 = savedSnapshot t2 := by
  subst h; exact ⟨rfl, rfl⟩

/-- C10 witness: the determinism theorem applied at a concrete text. -/
theorem claimC10_witness :
    updateChangelogFromMarkdown "0.1.2 - Fixed a long standing bug" =
      updateChangelogFromMarkdown "0.1.2 - Fixed a long standing bug" ∧
    savedSnapshot "0.1.2 - Fixed a long standing bug" =
      savedSnapshot "0.1.2 - Fixed a long standing bug" :=
  claimC10_determinism _ _ rfl

/-- C2: a description group whose members are the consecutive patches
`0.M.K … 0.M.K+N-1` (N ≥ 2, shared cleaned description of length ≥ 10,
shared detail link, fed to consolidation in any order) emits exactly one
record whose version is the hyphen-join of the first and last version of
the run; a group holding one single version emits one record with the
literal version string and no hyphen. -/
theorem claimC2_consolidation :
    (∀ (d : String) (link : Option String) (M K : Int) (vs ps : List String),
      2 ≤ vs.length →
      10 ≤ d.length →
      (∀ i : Fin vs.length,
        versionParts (vs.get i) = [0, M, K + ((i : Nat) : Int)]) →
      (∀ v ∈ vs, leadsWith ['0', '.'] v.data = true) →
      List.Perm ps vs →
      consolidateVersions (ps.map fun v => (v, (⟨d, link⟩ : PatchData))) =
        [⟨vs.headD "" ++ "-" ++ vs.getLastD "", d, link⟩]) ∧
    (∀ (d : String) (link : Option String) (v : String),
      10 ≤ d.length →
      leadsWith ['0', '.'] v.data = true →
      consolidateVersions [(v, (⟨d, link⟩ : PatchData))] = [⟨v, d, link⟩]) :=
  ⟨fun d link M K vs ps hN hd hparts hlead hperm =>
    consolidate_const_run d link M K vs ps hN hd hparts hlead hperm,
  fun d link v hd hlead => consolidate_const_single d link v hd hlead⟩

/-- C2 witness: the run `0.48.1, 0.48.2, 0.48.3` arriving in scrambled
order consolidates to the single range record `0.48.1-0.48.3`, and the
lone version `0.47.5` keeps its literal version string. -/
theorem claimC2_witness :
    consolidateVersions
        [("0.48.3", (⟨"A nice description", none⟩ : PatchData)),
         ("0.48.1", (⟨"A nice description", none⟩ : PatchData)),
         ("0.48.2", (⟨"A nice description", none⟩ : PatchData))] =
      [⟨"0.48.1-0.48.3", "A nice description", none⟩] ∧
    consolidateVersions [("0.47.5", (⟨"Another good fix here", some "L"⟩ : PatchData))] =
      [⟨"0.47.5", "Another good fix here", some "L"⟩] := by
  constructor
  · have h := claimC2_consolidation.1 "A nice description" none 48 1
      ["0.48.1", "0.48.2", "0.48.3"] ["0.48.3", "0.48.1", "0.48.2"]
      (by decide) (by decide) (by decide) (by decide) (by decide)
    exact h
  · exact claimC2_consolidation.2 "Another good fix here" (some "L") "0.47.5"
      (by decide) (by decide)

/-- C9 counterexample: the stored text `"[1, 2]"` parses as JSON and
does not denote a record array, yet `loadChangelog` returns that
ill-shaped parsed value unchanged — not the empty sequence — because
`JSON.parse(data) as ChangelogEntry[]` performs no runtime shape check,
refuting the claim that every storage state loads to the last saved
record sequence or to empty. -/
theorem claimC9_counterexample :
    jsonParse "[1, 2]" = some (.jarr [.jnum ['1'], .jnum ['2']]) ∧
    decodeEntries (.jarr [.jnum ['1'], .jnum ['2']]) = none ∧
    loadChangelog (some "[1, 2]") = .jarr [.jnum ['1'], .jnum ['2']] ∧
    loadChangelog (some "[1, 2]") ≠ .jarr [] := by
  refine ⟨rfl, rfl, rfl, ?_⟩
  intro h
  injection h with h2
  exact List.cons_ne_nil _ _ h2

/-- C9 amended: the load path is total and never raises — a missing
snapshot and a snapshot the JSON parser rejects (the caught
`JSON.parse` exception) both yield the empty array; every other
snapshot returns the parsed JSON value with no shape validation, so
well-formed JSON of the wrong shape escapes to the caller; and a
snapshot written by the serializer loads back to the JSON value
denoting exactly the saved records. -/
theorem claimC9_amended :
    loadChangelog none = .jarr [] ∧
    (∀ s : String, jsonParse s = none → loadChangelog (some s) = .jarr []) ∧
    (∀ (s : String) (j : Json), jsonParse s = some j → loadChangelog (some s) = j) ∧
    (∀ recs : List ChangelogEntry,
      loadChangelog (some (stringifyChangelog recs)) = .jarr (recs.map entryJson) ∧
      decodeEntries (.jarr (recs.map entryJson)) = some recs) := by
  refine ⟨rfl, ?_, ?_, ?_⟩
  · intro s hs
    show (match jsonParse s with
      | none => Json.jarr []
      | some v => v) = Json.jarr []
    rw [hs]
  · intro s j hs
    show (match jsonParse s with
      | none => Json.jarr []
      | some v => v) = j
    rw [hs]
  · intro recs
    refine ⟨?_, decodeEntries_map recs⟩
    show (match jsonParse (stringifyChangelog recs) with
      | none => Json.jarr []
      | some v => v) = Json.jarr (recs.map entryJson)
    rw [jsonParse_stringify recs]

/-- C9 witness: the amended load theorem applied at a missing snapshot,
at text the parser rejects, at parseable non-record JSON, and at a
concrete saved record list. -/
theorem claimC9_witness :
    loadChangelog none = .jarr [] ∧
    (jsonParse "not a snapshot" = none ∧
     loadChangelog (some "not a snapshot") = .jarr []) ∧
    (jsonParse "[7]" = some (.jarr [.jnum ['7']]) ∧
     loadChangelog (some "[7]") = .jarr [.jnum ['7']]) ∧
    (loadChangelog (some (stringifyChangelog
        [⟨"0.48.1", "Fixed a long standing bug", some "https://example.com"⟩])) =
      .jarr [entryJson ⟨"0.48.1", "Fixed a long standing bug", some "https://example.com"⟩] ∧
     decodeEntries (.jarr [entryJson
        ⟨"0.48.1", "Fixed a long standing bug", some "https://example.com"⟩]) =
      some [⟨"0.48.1", "Fixed a long standing bug", some "https://example.com"⟩]) :=
  ⟨claimC9_amended.1,
   ⟨rfl, claimC9_amended.2.1 "not a snapshot" rfl⟩,
   ⟨rfl, claimC9_amended.2.2.1 "[7]" (.jarr [.jnum ['7']]) rfl⟩,
   claimC9_amended.2.2.2
     [⟨"0.48.1", "Fixed a long standing bug", some "https://example.com"⟩]⟩

end Changelog
